import Mathlib

/-!
Verification of the MedicAI AI-request orchestrator (`src/services/gemini.ts`
and its sibling revisions) against its natural-language specification.

Strings are modelled as `List Char` (`Str`).  The JSON values produced by
`JSON.parse` are modelled by the inductive `Json`; numbers keep their source
lexeme, which is faithful for every comparison performed here (all comparisons
are between parses of identical character sequences).  `JSON.parse` itself is
modelled by `jparse`: a strict recursive-descent parser over the JSON grammar
(whitespace, literals, numbers, strings with escapes, arrays, objects with
last-key-wins duplicate handling) that fails on any trailing garbage, exactly
as the JavaScript builtin does.
-/

namespace MedicAI

abbrev Str := List Char

/-- The backtick character (code 96). -/
def btick : Char := Char.ofNat 96

/-- ASCII decimal digit test, as used by the JSON number grammar. -/
def isDigitC (c : Char) : Bool := 48 ≤ c.toNat && c.toNat ≤ 57

/-- The four insignificant whitespace characters of the JSON grammar
(space, tab, line feed, carriage return) skipped by `JSON.parse`. -/
def isJsonWs (c : Char) : Bool :=
  c.toNat = 32 || c.toNat = 9 || c.toNat = 10 || c.toNat = 13

/-- The whitespace set removed by JavaScript `String.prototype.trim`
(ECMAScript WhiteSpace plus LineTerminator code points). -/
def isJsWs (c : Char) : Bool :=
  isJsonWs c || c.toNat = 11 || c.toNat = 12 || c.toNat = 160 ||
  c.toNat = 0x1680 || (0x2000 ≤ c.toNat && c.toNat ≤ 0x200A) ||
  c.toNat = 0x2028 || c.toNat = 0x2029 || c.toNat = 0x202F ||
  c.toNat = 0x205F || c.toNat = 0x3000 || c.toNat = 0xFEFF

/-- Parsed JSON values.  Numbers keep their source lexeme. -/
inductive Json where
  | null : Json
  | bool (b : Bool) : Json
  | num (lit : Str) : Json
  | str (s : Str) : Json
  | arr (elems : List Json) : Json
  | obj (fields : List (Str × Json)) : Json

mutual

/-- Structural Boolean equality on `Json`. -/
def jsonBeq : Json → Json → Bool
  | .null, .null => true
  | .bool a, .bool b => decide (a = b)
  | .num a, .num b => decide (a = b)
  | .str a, .str b => decide (a = b)
  | .arr xs, .arr ys => jsonListBeq xs ys
  | .obj xs, .obj ys => jsonFieldsBeq xs ys
  | _, _ => false

/-- `jsonBeq` lifted to element lists. -/
def jsonListBeq : List Json → List Json → Bool
  | [], [] => true
  | x :: xs, y :: ys => jsonBeq x y && jsonListBeq xs ys
  | _, _ => false

/-- `jsonBeq` lifted to field lists. -/
def jsonFieldsBeq : List (Str × Json) → List (Str × Json) → Bool
  | [], [] => true
  | (k1, v1) :: xs, (k2, v2) :: ys =>
    decide (k1 = k2) && jsonBeq v1 v2 && jsonFieldsBeq xs ys
  | _, _ => false

end

mutual

/-- `jsonBeq` decides equality. -/
def jsonBeq_iff : ∀ a b : Json, jsonBeq a b = true ↔ a = b
  | .null, .null => by simp [jsonBeq]
  | .null, .bool _ | .null, .num _ | .null, .str _ | .null, .arr _
  | .null, .obj _ => by simp [jsonBeq]
  | .bool _, .null | .bool _, .num _ | .bool _, .str _ | .bool _, .arr _
  | .bool _, .obj _ => by simp [jsonBeq]
  | .num _, .null | .num _, .bool _ | .num _, .str _ | .num _, .arr _
  | .num _, .obj _ => by simp [jsonBeq]
  | .str _, .null | .str _, .bool _ | .str _, .num _ | .str _, .arr _
  | .str _, .obj _ => by simp [jsonBeq]
  | .arr _, .null | .arr _, .bool _ | .arr _, .num _ | .arr _, .str _
  | .arr _, .obj _ => by simp [jsonBeq]
  | .obj _, .null | .obj _, .bool _ | .obj _, .num _ | .obj _, .str _
  | .obj _, .arr _ => by simp [jsonBeq]
  | .bool a, .bool b => by simp [jsonBeq]
  | .num a, .num b => by simp [jsonBeq]
  | .str a, .str b => by simp [jsonBeq]
  | .arr xs, .arr ys => by
    simp only [jsonBeq, Json.arr.injEq]
    exact jsonListBeq_iff xs ys
  | .obj xs, .obj ys => by
    simp only [jsonBeq, Json.obj.injEq]
    exact jsonFieldsBeq_iff xs ys

/-- `jsonListBeq` decides equality. -/
def jsonListBeq_iff : ∀ xs ys : List Json, jsonListBeq xs ys = true ↔ xs = ys
  | [], [] => by simp [jsonListBeq]
  | [], _ :: _ => by simp [jsonListBeq]
  | _ :: _, [] => by simp [jsonListBeq]
  | x :: xs, y :: ys => by
    simp only [jsonListBeq, Bool.and_eq_true, List.cons.injEq]
    exact and_congr (jsonBeq_iff x y) (jsonListBeq_iff xs ys)

/-- `jsonFieldsBeq` decides equality. -/
def jsonFieldsBeq_iff :
    ∀ xs ys : List (Str × Json), jsonFieldsBeq xs ys = true ↔ xs = ys
  | [], [] => by simp [jsonFieldsBeq]
  | [], _ :: _ => by simp [jsonFieldsBeq]
  | _ :: _, [] => by simp [jsonFieldsBeq]
  | (k1, v1) :: xs, (k2, v2) :: ys => by
    simp only [jsonFieldsBeq, Bool.and_eq_true, List.cons.injEq, Prod.mk.injEq,
      decide_eq_true_eq]
    exact and_congr (and_congr Iff.rfl (jsonBeq_iff v1 v2))
      (jsonFieldsBeq_iff xs ys)

end

instance : DecidableEq Json := fun a b =>
  decidable_of_iff (jsonBeq a b = true) (jsonBeq_iff a b)

/-- Decoding table for single-character JSON string escapes. -/
def escChar (c : Char) : Option Char :=
  if c = '"' then some '"'
  else if c = '\\' then some '\\'
  else if c = '/' then some '/'
  else if c = 'b' then some (Char.ofNat 8)
  else if c = 'f' then some (Char.ofNat 12)
  else if c = 'n' then some '\n'
  else if c = 'r' then some '\r'
  else if c = 't' then some '\t'
  else none

/-- Value of a hexadecimal digit, if any. -/
def hexVal (c : Char) : Option Nat :=
  if 48 ≤ c.toNat && c.toNat ≤ 57 then some (c.toNat - 48)
  else if 97 ≤ c.toNat && c.toNat ≤ 102 then some (c.toNat - 87)
  else if 65 ≤ c.toNat && c.toNat ≤ 70 then some (c.toNat - 55)
  else none

/-- JSON string body parser.  The input starts just after the opening quote;
on success it returns the decoded content and the input after the closing
quote.  Raw control characters below 0x20 are rejected, as in `JSON.parse`. -/
def parseStr : Str → Option (Str × Str)
  | [] => none
  | c :: t =>
    if c = '"' then some ([], t)
    else if c = '\\' then
      match t with
      | [] => none
      | e :: t2 =>
        if e = 'u' then
          match t2 with
          | h1 :: h2 :: h3 :: h4 :: t3 =>
            match hexVal h1, hexVal h2, hexVal h3, hexVal h4 with
            | some a, some b, some c2, some d =>
              match parseStr t3 with
              | some (s, r) =>
                some (Char.ofNat (((a * 16 + b) * 16 + c2) * 16 + d) :: s, r)
              | none => none
            | _, _, _, _ => none
          | _ => none
        else
          match escChar e with
          | some ec =>
            match parseStr t2 with
            | some (s, r) => some (ec :: s, r)
            | none => none
          | none => none
    else if c.toNat < 32 then none
    else
      match parseStr t with
      | some (s, r) => some (c :: s, r)
      | none => none

/-- Integer part of a JSON number: `0`, or a nonzero digit followed by
digits.  (A leading `0` deliberately absorbs no further digits, exactly the
JSON grammar; `01` therefore leaves `1` unconsumed and fails later, as in
JavaScript.) -/
def intSpan : Str → Option (Str × Str)
  | [] => none
  | c :: t =>
    if c = '0' then some ([c], t)
    else if isDigitC c then some (c :: t.takeWhile isDigitC, t.dropWhile isDigitC)
    else none

/-- Optional fraction part `.digits+`; taken only when well formed. -/
def fracSpan : Str → Str × Str
  | [] => ([], [])
  | c :: t =>
    if c = '.' then
      if t.takeWhile isDigitC = [] then ([], c :: t)
      else (c :: t.takeWhile isDigitC, t.dropWhile isDigitC)
    else ([], c :: t)

/-- Optional exponent part `[eE][+-]?digits+`; taken only when well formed. -/
def expSpan : Str → Str × Str
  | [] => ([], [])
  | c :: t =>
    if c = 'e' || c = 'E' then
      match t with
      | [] => ([], [c])
      | s :: t2 =>
        if s = '+' || s = '-' then
          if t2.takeWhile isDigitC = [] then ([], c :: s :: t2)
          else (c :: s :: t2.takeWhile isDigitC, t2.dropWhile isDigitC)
        else
          if t.takeWhile isDigitC = [] then ([], c :: t)
          else (c :: t.takeWhile isDigitC, t.dropWhile isDigitC)
    else ([], c :: t)

/-- JSON number parser; keeps the consumed lexeme. -/
def parseNum (l : Str) : Option (Json × Str) :=
  match l with
  | [] => none
  | c :: t =>
    let p := if c = '-' then (([c] : Str), t) else (([] : Str), c :: t)
    match intSpan p.2 with
    | none => none
    | some (ip, r1) =>
      let fp := fracSpan r1
      let ep := expSpan fp.2
      some (Json.num (p.1 ++ ip ++ fp.1 ++ ep.1), ep.2)

/-- Literal prefix test over decidable character equality. -/
def litPrefix : Str → Str → Bool
  | [], _ => true
  | _ :: _, [] => false
  | p :: ps, c :: cs => decide (p = c) && litPrefix ps cs

/-- Fixed-keyword parser (`true`, `false`, `null`). -/
def parseLit (pat : Str) (v : Json) (l : Str) : Option (Json × Str) :=
  if litPrefix pat l then some (v, l.drop pat.length) else none

/-- Skip insignificant JSON whitespace. -/
def skipWs (l : Str) : Str := l.dropWhile isJsonWs

/-- Record a key/value pair in an object, overwriting any earlier pair with
the same key — `JSON.parse`'s last-key-wins duplicate semantics. -/
def objUpsert (fields : List (Str × Json)) (k : Str) (v : Json) :
    List (Str × Json) :=
  fields.filter (fun p => decide (p.1 ≠ k)) ++ [(k, v)]

/-- Collapse duplicate keys, last occurrence winning. -/
def objDedup (pairs : List (Str × Json)) : List (Str × Json) :=
  pairs.foldl (fun acc p => objUpsert acc p.1 p.2) []

/-- Three-valued parser result: out of fuel, parse failure, or success. -/
inductive PR (α : Type) where
  | out : PR α
  | fail : PR α
  | ok (a : α) : PR α
deriving DecidableEq, Repr

mutual

/-- JSON value parser.  The input must start directly at the value (no
leading whitespace); on success the remainder starts directly after the
value's final character. -/
def parseVal : Nat → Str → PR (Json × Str)
  | 0, _ => .out
  | Nat.succ f, l =>
    match l with
    | [] => .fail
    | c :: t =>
      if c = '{' then
        match skipWs t with
        | [] => .fail
        | c2 :: t2 =>
          if c2 = '}' then .ok (Json.obj [], t2)
          else
            match parseMembers f (c2 :: t2) with
            | .ok (kvs, r) => .ok (Json.obj (objDedup kvs), r)
            | .fail => .fail
            | .out => .out
      else if c = '[' then
        match skipWs t with
        | [] => .fail
        | c2 :: t2 =>
          if c2 = ']' then .ok (Json.arr [], t2)
          else
            match parseElems f (c2 :: t2) with
            | .ok (vs, r) => .ok (Json.arr vs, r)
            | .fail => .fail
            | .out => .out
      else if c = '"' then
        match parseStr t with
        | some (s, r) => .ok (Json.str s, r)
        | none => .fail
      else if c = 't' then
        match parseLit ('t' :: 'r' :: 'u' :: 'e' :: []) (Json.bool true) l with
        | some x => .ok x
        | none => .fail
      else if c = 'f' then
        match parseLit ('f' :: 'a' :: 'l' :: 's' :: 'e' :: []) (Json.bool false) l with
        | some x => .ok x
        | none => .fail
      else if c = 'n' then
        match parseLit ('n' :: 'u' :: 'l' :: 'l' :: []) Json.null l with
        | some x => .ok x
        | none => .fail
      else if c = '-' || isDigitC c then
        match parseNum l with
        | some x => .ok x
        | none => .fail
      else .fail

/-- Array elements: input at the first element, output after `]`. -/
def parseElems : Nat → Str → PR (List Json × Str)
  | 0, _ => .out
  | Nat.succ f, l =>
    match parseVal f l with
    | .out => .out
    | .fail => .fail
    | .ok (v, r) =>
      match skipWs r with
      | [] => .fail
      | c :: r2 =>
        if c = ',' then
          match parseElems f (skipWs r2) with
          | .ok (vs, r3) => .ok (v :: vs, r3)
          | .fail => .fail
          | .out => .out
        else if c = ']' then .ok ([v], r2)
        else .fail

/-- Object members: input at the first key's quote, output after `}`. -/
def parseMembers : Nat → Str → PR (List (Str × Json) × Str)
  | 0, _ => .out
  | Nat.succ f, l =>
    match l with
    | [] => .fail
    | c :: t =>
      if c = '"' then
        match parseStr t with
        | none => .fail
        | some (k, r1) =>
          match skipWs r1 with
          | [] => .fail
          | c2 :: r2 =>
            if c2 = ':' then
              match parseVal f (skipWs r2) with
              | .out => .out
              | .fail => .fail
              | .ok (v, r3) =>
                match skipWs r3 with
                | [] => .fail
                | c3 :: r4 =>
                  if c3 = ',' then
                    match parseMembers f (skipWs r4) with
                    | .ok (kvs, r5) => .ok ((k, v) :: kvs, r5)
                    | .fail => .fail
                    | .out => .out
                  else if c3 = '}' then .ok ([(k, v)], r4)
                  else .fail
            else .fail
      else .fail

end

/-- The model of `JSON.parse`: strict parse of one JSON value surrounded by
nothing but insignificant whitespace; `none` models a thrown `SyntaxError`.
The fuel `2 * length + 2` is enough for any input (each unit of structural
recursion consumes at least one character per two units of fuel), so the
fuel is an implementation artifact, not a semantic bound. -/
def jparse (l : Str) : Option Json :=
  match parseVal (2 * l.length + 2) (skipWs l) with
  | .ok (v, rest) => if rest.all isJsonWs then some v else none
  | _ => none

/-- Does the regex `/```json/gi` match at the start of the input?
Backticks are matched literally; the letters case-insensitively. -/
def isFenceJsonAt : Str → Bool
  | a :: b :: c :: d :: e2 :: f2 :: g :: _ =>
    decide (a = btick) && decide (b = btick) && decide (c = btick) &&
    (decide (d = 'j') || decide (d = 'J')) &&
    (decide (e2 = 's') || decide (e2 = 'S')) &&
    (decide (f2 = 'o') || decide (f2 = 'O')) &&
    (decide (g = 'n') || decide (g = 'N'))
  | _ => false

/-- Does the regex `/```/g` match at the start of the input? -/
def isFence3At : Str → Bool
  | a :: b :: c :: _ =>
    decide (a = btick) && decide (b = btick) && decide (c = btick)
  | _ => false

/-- Left-to-right scanner for the `/```json/gi` pass.  The first argument
counts characters of an already-recognised match still to be discarded, so
that the recursion is structural and the function evaluates by `rfl`. -/
def stripAGo : Nat → Str → Str
  | _ + 1, [] => []
  | n + 1, _ :: t => stripAGo n t
  | 0, [] => []
  | 0, c :: t =>
    if isFenceJsonAt (c :: t) then stripAGo 6 t else c :: stripAGo 0 t

/-- `text.replace(/```json/gi, '')`: left-to-right removal of every
non-overlapping case-insensitive occurrence of three backticks + `json`. -/
def stripA (l : Str) : Str := stripAGo 0 l

/-- Left-to-right scanner for the `/```/g` pass. -/
def stripBGo : Nat → Str → Str
  | _ + 1, [] => []
  | n + 1, _ :: t => stripBGo n t
  | 0, [] => []
  | 0, c :: t =>
    if isFence3At (c :: t) then stripBGo 2 t else c :: stripBGo 0 t

/-- `text.replace(/```/g, '')`: left-to-right removal of every
non-overlapping occurrence of three backticks. -/
def stripB (l : Str) : Str := stripBGo 0 l

/-- JavaScript `String.prototype.trim`. -/
def jsTrim (l : Str) : Str :=
  ((l.dropWhile isJsWs).reverse.dropWhile isJsWs).reverse

/-- Step 1 of `extractJson`: strip Markdown code-fence markers (the
`/```json/gi` pass first, then the `/```/g` pass) and trim. -/
def jsClean (l : Str) : Str := jsTrim (stripB (stripA l))

/-- The `'array' | 'object'` shape argument of `extractJson`. -/
inductive JKind where
  | array : JKind
  | object : JKind
deriving DecidableEq, Repr

/-- Opening bracket/brace looked up by the heuristic pass. -/
def startCharOf : JKind → Char
  | .array => '['
  | .object => '{'

/-- Closing bracket/brace looked up by the heuristic pass. -/
def endCharOf : JKind → Char
  | .array => ']'
  | .object => '}'

/-- The direct-parse type check of `extractJson`:
`Array.isArray(parsed)` for `'array'`;
`!Array.isArray(parsed) && typeof parsed === 'object'` for `'object'`
(note that `typeof null === 'object'`, so `null` passes the object check). -/
def accepts : JKind → Json → Bool
  | .array, .arr _ => true
  | .array, _ => false
  | .object, .arr _ => false
  | .object, .obj _ => true
  | .object, .null => true
  | .object, _ => false

/-- `String.prototype.indexOf` for a single character (`some i` instead of
the JavaScript `-1` sentinel). -/
def firstIdx (c : Char) : Str → Option Nat
  | [] => none
  | x :: t => if x = c then some 0 else (firstIdx c t).map (· + 1)

/-- `String.prototype.lastIndexOf` for a single character. -/
def lastIdx (c : Char) (l : Str) : Option Nat :=
  (firstIdx c l.reverse).map (fun i => l.length - 1 - i)

/-- `String.prototype.substring i j` (characters `i` to `j` exclusive). -/
def substr (l : Str) (i j : Nat) : Str := (l.take j).drop i

/-- The two failures `extractJson` can throw: `parseFail k` is
`"Failed to parse AI response as ${type}."` and `noJson k` is
`"No valid JSON ${type} found in response."`; both name the expected
shape `k`. -/
inductive ExtractErr where
  | parseFail (k : JKind)
  | noJson (k : JKind)
deriving DecidableEq, Repr

/-- The expected shape named by an `extractJson` failure message. -/
def ExtractErr.shape : ExtractErr → JKind
  | .parseFail k => k
  | .noJson k => k

instance {ε α : Type} [DecidableEq ε] [DecidableEq α] :
    DecidableEq (Except ε α) := fun a b =>
  match a, b with
  | .ok x, .ok y =>
    if h : x = y then .isTrue (by rw [h]) else .isFalse (by simp [h])
  | .error x, .error y =>
    if h : x = y then .isTrue (by rw [h]) else .isFalse (by simp [h])
  | .ok _, .error _ => .isFalse (by simp)
  | .error _, .ok _ => .isFalse (by simp)

/-- Steps 3–4 of `extractJson`: find the first opening and last closing
bracket/brace of the expected kind; when both exist in order, parse that
substring (`substring(startIndex, endIndex + 1)`), else fail. -/
def heuristicExtract (clean : Str) (k : JKind) : Except ExtractErr Json :=
  match firstIdx (startCharOf k) clean, lastIdx (endCharOf k) clean with
  | some i, some j =>
    if i < j then
      match jparse (substr clean i (j + 1)) with
      | some v => .ok v
      | none => .error (.parseFail k)
    else .error (.noJson k)
  | some _, none => .error (.noJson k)
  | none, some _ => .error (.noJson k)
  | none, none => .error (.noJson k)

/-- `extractJson` from `src/services/gemini.ts` (lines 28–60): strip code
fences and trim; try a strict direct parse with the shape check; on failure
fall back to the first-to-last bracket substring heuristic; otherwise throw
a malformed-response error naming the shape. -/
def extractJson (text : Str) (k : JKind) : Except ExtractErr Json :=
  match jparse (jsClean text) with
  | some v => if accepts k v then .ok v else heuristicExtract (jsClean text) k
  | none => heuristicExtract (jsClean text) k

/-! ### Service layer

Thrown errors are modelled by their `message` string, because the catch
blocks of `gemini.ts` dispatch on `error.message?.includes("API key")`.
The network is modelled by a `ProviderResult` per request — either a thrown
provider error or a response whose `.text` may be `undefined` or empty —
and each operation additionally reports how many network invocations it
performed, so that "no network call is attempted" is a provable statement.
-/

/-- Substring containment, modelling `String.prototype.includes`. -/
def hasSub (pat : Str) : Str → Bool
  | [] => litPrefix pat []
  | c :: t => litPrefix pat (c :: t) || hasSub pat t

/-- The shape name interpolated into `extractJson` failure messages. -/
def kindName : JKind → Str
  | .array => 'a' :: 'r' :: 'r' :: 'a' :: 'y' :: []
  | .object => 'o' :: 'b' :: 'j' :: 'e' :: 'c' :: 't' :: []

/-- `"Failed to parse AI response as ${type}."` / `"No valid JSON ${type}
found in response."` -/
def extractErrMsg : ExtractErr → Str
  | .parseFail k => "Failed to parse AI response as ".toList ++ kindName k ++ ".".toList
  | .noJson k => "No valid JSON ".toList ++ kindName k ++ " found in response.".toList

def missingKeyMsg : Str :=
  "System API Key is missing. Please check application configuration.".toList

def invalidKeyMsg : Str := "Invalid or missing API Key.".toList

def analyzeFailedMsg : Str :=
  "Failed to analyze interactions. Please try again.".toList

def agenticFailedMsg : Str :=
  "Failed to complete safety analysis. Please try again.".toList

def chatFailedMsg : Str := "Failed to send message.".toList

def noResponseMsg : Str := "No response from AI model".toList

def emptyAIMsg : Str := "Empty response from AI".toList

def emptyProMsg : Str := "Empty response from Pro model".toList

def noMedsMsg : Str := "No medications found. Please try a clearer image.".toList

def timeoutMsg : Str :=
  "Request timed out. Please try fewer or clearer images.".toList

def scanDefaultFailMsg : Str := "Analysis failed.".toList

/-- Stand-in for the `TypeError` message raised by a property access on
`null` (it does not contain the substring `"API key"`, which is all the
catch blocks inspect). -/
def nullAccessMsg : Str := "Cannot read properties of null".toList

/-- The needle of `error.message?.includes("API key")`. -/
def apiKeyNeedle : Str := "API key".toList

/-- `process.env.API_KEY`: absent or a string. -/
abbrev Env := Option Str

/-- The condition under which `getAi` throws: `!apiKey`, i.e. the key is
`undefined` or the empty string. -/
def credMissing : Env → Bool
  | none => true
  | some k => decide (k = [])

/-- `validateApiKey` (gemini.ts lines 14–17):
`!!(key && key.trim().length > 0)`. -/
def validateApiKey : Env → Bool
  | none => false
  | some k => !(decide (k = [])) && decide (0 < (jsTrim k).length)

/-- One provider interaction: a thrown error (network/provider failure),
or a response whose `.text` is `undefined` (`none`) or a string. -/
inductive ProviderResult where
  | throw (msg : Str)
  | reply (text : Option Str)

/-- `!text` on a `response.text`: `undefined` or `""`. -/
def falsyText : Option Str → Bool
  | none => true
  | some t => decide (t = [])

/-- Catch block of the scan operation: an `"API key"` error is replaced by
`invalidKeyMsg`, anything else is rethrown unchanged. -/
def ocrCatch (m : Str) : Str :=
  if hasSub apiKeyNeedle m then invalidKeyMsg else m

/-- Catch block of the single-call analysis operation: an `"API key"` error
becomes `invalidKeyMsg`, anything else becomes `analyzeFailedMsg`. -/
def analysisCatch (m : Str) : Str :=
  if hasSub apiKeyNeedle m then invalidKeyMsg else analyzeFailedMsg

/-- Catch block of the agentic analysis operation. -/
def agenticCatch (m : Str) : Str :=
  if hasSub apiKeyNeedle m then invalidKeyMsg else agenticFailedMsg

/-- Catch block of the chat operation. -/
def chatCatch (m : Str) : Str :=
  if hasSub apiKeyNeedle m then invalidKeyMsg else chatFailedMsg

/-- `analyzePrescriptionImage` (gemini.ts lines 66–117): credential check
via `getAi`, one vision request, then `extractJson(text, 'array')`; the
catch special-cases `"API key"` messages and rethrows everything else. -/
def analyzePrescriptionImage (env : Env) (r : ProviderResult) :
    Except Str Json × Nat :=
  if credMissing env then (.error missingKeyMsg, 0)
  else
    match r with
    | .throw m => (.error (ocrCatch m), 1)
    | .reply t =>
      if falsyText t then (.error (ocrCatch noResponseMsg), 1)
      else
        match extractJson (t.getD []) .array with
        | .ok v => (.ok v, 1)
        | .error e => (.error (ocrCatch (extractErrMsg e)), 1)

/-- The fallback (second tier) of `verifyMedicationSpelling` (gemini.ts
lines 159–186): one ungrounded request; an empty response or any failure
returns the original input unchanged. -/
def verifyFallback (s : ProviderResult) (meds : Json) : Json :=
  match s with
  | .throw _ => meds
  | .reply t =>
    if falsyText t then meds
    else
      match extractJson (t.getD []) .array with
      | .ok v => v
      | .error _ => meds

/-- `verifyMedicationSpelling` (gemini.ts lines 122–188): credential check
via `getAi` (outside every try block), then the grounded primary request;
any primary failure — thrown provider error, empty text, or extraction
failure — falls back to the ungrounded secondary request. -/
def verifyMedicationSpelling (env : Env) (p s : ProviderResult) (meds : Json) :
    Except Str Json × Nat :=
  if credMissing env then (.error missingKeyMsg, 0)
  else
    match p with
    | .throw _ => (.ok (verifyFallback s meds), 2)
    | .reply t =>
      if falsyText t then (.ok (verifyFallback s meds), 2)
      else
        match extractJson (t.getD []) .array with
        | .ok v => (.ok v, 1)
        | .error _ => (.ok (verifyFallback s meds), 2)

/-- Structural test for the JSON `null` value (kernel-reducible, unlike a
`DecidableEq`-based comparison). -/
def isNull : Json → Bool
  | .null => true
  | _ => false

/-- Property read on a parsed JSON object (`none` models `undefined`).
Parsed objects have unique keys (`objDedup`), so the first match is the
only one. -/
def jsGet (j : Json) (k : Str) : Option Json :=
  match j with
  | .obj fs => (fs.find? (fun p => decide (p.1 = k))).map (fun p => p.2)
  | _ => none

/-- JavaScript falsiness of a parsed JSON value (`null`, `false`, zero,
empty string). -/
def jsFalsy : Json → Bool
  | .null => true
  | .bool b => !b
  | .num lit =>
    (lit.takeWhile (fun c => !(decide (c = 'e') || decide (c = 'E')))).all
      (fun c => !isDigitC c || decide (c = '0'))
  | .str s => decide (s = [])
  | .arr _ => false
  | .obj _ => false

/-- `!x` for a possibly-`undefined` property. -/
def optFalsy : Option Json → Bool
  | none => true
  | some v => jsFalsy v

/-- `Array.isArray` on a possibly-`undefined` property. -/
def isArrOpt : Option Json → Bool
  | some (.arr _) => true
  | _ => false

/-- Property assignment on a parsed JSON object (no-op on non-objects,
which never receive one in the modelled paths). -/
def setField (j : Json) (k : Str) (v : Json) : Json :=
  match j with
  | .obj fs => .obj (objUpsert fs k v)
  | _ => j

/-- `if (!result.k) result.k = d`. -/
def defaultField (j : Json) (k : Str) (d : Json) : Json :=
  if optFalsy (jsGet j k) then setField j k d else j

def interactionsKey : Str := "interactions".toList

def indicationChecksKey : Str := "indicationChecks".toList

def dietPlanKey : Str := "dietPlan".toList

def lifestylePlanKey : Str := "lifestylePlan".toList

def lifestyleWarningsKey : Str := "lifestyleWarnings".toList

def summaryKey : Str := "summary".toList

/-- `{ recommendedFoods: [], avoidFoods: [] }`. -/
def defaultDietPlan : Json :=
  Json.obj [("recommendedFoods".toList, Json.arr []),
            ("avoidFoods".toList, Json.arr [])]

/-- `{ exercises: [] }`. -/
def defaultLifestylePlan : Json := Json.obj [("exercises".toList, Json.arr [])]

/-- `analyzeInteractions` (gemini.ts lines 193–299): credential check, one
request, `extractJson(text, 'object')`, a structural check that
`result.interactions` is an array, then defaulting of `indicationChecks`,
`dietPlan` and `lifestylePlan` only.  A `null` extraction result makes the
`result.interactions` access throw a `TypeError`, which the catch turns
into the generic failure. -/
def analyzeInteractionsV1 (env : Env) (r : ProviderResult) :
    Except Str Json × Nat :=
  if credMissing env then (.error missingKeyMsg, 0)
  else
    match r with
    | .throw m => (.error (analysisCatch m), 1)
    | .reply t =>
      if falsyText t then (.error (analysisCatch emptyAIMsg), 1)
      else
        match extractJson (t.getD []) .object with
        | .error e => (.error (analysisCatch (extractErrMsg e)), 1)
        | .ok j =>
          if isNull j then (.error (analysisCatch nullAccessMsg), 1)
          else
            let inter := jsGet j interactionsKey
            if optFalsy inter || !isArrOpt inter then
              (.error (analysisCatch "Invalid JSON structure returned".toList), 1)
            else
              (.ok (defaultField
                      (defaultField
                        (defaultField j indicationChecksKey (Json.arr []))
                        dietPlanKey defaultDietPlan)
                      lifestylePlanKey defaultLifestylePlan), 1)

/-- `"{}"`, the fallback text of the agent helpers
(`extractJson(response.text || "{}", 'object')`). -/
def emptyObjText : Str := "\x7b\x7d".toList

/-- Outcome of one agent helper of the agentic revision
(`runClinicalSafetyAgent` / `runWellnessAgent`, part_002 lines 497–580):
a thrown provider error propagates; otherwise the response text (or
`"{}"` when empty) goes through `extractJson(·, 'object')`. -/
def runAgentOutcome (r : ProviderResult) : Except Str Json :=
  match r with
  | .throw m => .error m
  | .reply t =>
    match extractJson (if falsyText t then emptyObjText else t.getD []) .object with
    | .ok v => .ok v
    | .error e => .error (extractErrMsg e)

/-- `x.k || d` on an agent result. -/
def jsOrDefault (o : Option Json) (d : Json) : Json :=
  match o with
  | none => d
  | some v => if jsFalsy v then d else v

/-- The merge step of the agentic `analyzeInteractions` (part_002 lines
616–624): every field of the final result is filled from the owning agent
or defaulted. -/
def mergeAgentResults (a b : Json) : Json :=
  Json.obj
    [(interactionsKey, jsOrDefault (jsGet a interactionsKey) (Json.arr [])),
     (indicationChecksKey, jsOrDefault (jsGet a indicationChecksKey) (Json.arr [])),
     (summaryKey, jsOrDefault (jsGet a summaryKey) (Json.str "Analysis complete.".toList)),
     (dietPlanKey, jsOrDefault (jsGet b dietPlanKey) defaultDietPlan),
     (lifestylePlanKey, jsOrDefault (jsGet b lifestylePlanKey) defaultLifestylePlan),
     (lifestyleWarningsKey, jsOrDefault (jsGet b lifestyleWarningsKey) (Json.arr []))]

/-- The agentic `analyzeInteractions` (part_002 lines 583–635): credential
check, both agents dispatched and joined by `Promise.all`, merge on double
success; a rejection of either agent rejects the whole operation through
the single catch block (an agent result of `null` makes the merge's
property accesses throw, also caught). -/
def analyzeInteractionsAgentic (env : Env) (rs rw : ProviderResult) :
    Except Str Json × Nat :=
  if credMissing env then (.error missingKeyMsg, 0)
  else
    match runAgentOutcome rs, runAgentOutcome rw with
    | .ok a, .ok b =>
      if isNull a || isNull b then
        (.error (agenticCatch nullAccessMsg), 2)
      else (.ok (mergeAgentResults a b), 2)
    | .error m, _ => (.error (agenticCatch m), 2)
    | .ok _, .error m => (.error (agenticCatch m), 2)

/-- Chat turn roles. -/
inductive ChatRole where
  | user : ChatRole
  | model : ChatRole

/-- The literal fallback reply of `sendChatMessage`
(`"I'm sorry, I couldn't generate a response."`). -/
def chatFallbackReply : Str :=
  "I".toList ++ [Char.ofNat 39] ++ "m sorry, I couldn".toList ++
  [Char.ofNat 39] ++ "t generate a response.".toList

/-- `sendChatMessage` (gemini.ts lines 304–330): credential check, one
request carrying the full history, `result.text || fallback`; failures go
through the chat catch block. -/
def sendChatMessage (env : Env) (r : ProviderResult)
    (_currentMessage : Str) (_history : List (ChatRole × Str)) :
    Except Str Str × Nat :=
  if credMissing env then (.error missingKeyMsg, 0)
  else
    match r with
    | .throw m => (.error (chatCatch m), 1)
    | .reply t =>
      (.ok (match t with
            | some txt => if txt = [] then chatFallbackReply else txt
            | none => chatFallbackReply), 1)

/-! ### Scanner components (`handleAnalyzeAll`) -/

/-- A captured page held by the scanner. -/
structure ScannedImage where
  id : Str
  base64 : Str
  mimeType : Str

/-- Result of the part_003 `handleAnalyzeAll`: no-op on an empty image
list, an inline error, or the review stage. -/
inductive ScanStep where
  | noImages : ScanStep
  | failed (msg : Str) : ScanStep
  | review (meds : List Json) : ScanStep
deriving DecidableEq

/-- `handleAnalyzeAll` (part_003 lines 351–385): early return on no
images; the scan request raced against a 30 s timeout is a single
`Except`; an empty extracted list throws the no-medications error, a
non-empty one moves to review. -/
def handleAnalyzeAll (images : List ScannedImage)
    (outcome : Except Str (List Json)) : ScanStep :=
  if images.isEmpty then .noImages
  else
    match outcome with
    | .error m => .failed (if m = [] then scanDefaultFailMsg else m)
    | .ok meds => if meds.isEmpty then .failed noMedsMsg else .review meds

/-- A free-form patient vital (part_002 types). -/
structure Vital where
  id : Str
  key : Str
  value : Str
deriving DecidableEq

/-- Result of the part_004 `handleAnalyzeAll`. -/
inductive ScanStepV2 where
  | noImages : ScanStepV2
  | failed (msg : Str) : ScanStepV2
  | review (meds : List Json) (details : List Vital) : ScanStepV2
deriving DecidableEq

/-- `handleAnalyzeAll` (part_004 lines 492–535): like the part_003 one, on
the `{ medications, patientDetails }` result shape; fresh ids (drawn from
`gen`) are spread into the reviewed medications. -/
def handleAnalyzeAllV2 (images : List ScannedImage)
    (outcome : Except Str (List Json × List Vital)) (gen : Nat → Str) :
    ScanStepV2 :=
  if images.isEmpty then .noImages
  else
    match outcome with
    | .error m => .failed (if m = [] then scanDefaultFailMsg else m)
    | .ok (meds, details) =>
      if meds.isEmpty then .failed noMedsMsg
      else
        .review (meds.enum.map (fun p => setField p.2 "id".toList (Json.str (gen p.1)))) details

/-! ### Application state (`App`, part_000) -/

/-- Provenance of a medication record. -/
inductive MedSource where
  | manual : MedSource
  | ocr : MedSource
deriving DecidableEq

/-- The `Medication` record of `types.ts`. -/
structure Medication where
  id : Str
  name : Str
  dosage : Str
  frequency : Str
  duration : Option Str
  instructions : Option Str
  prescriber : Option Str
  source : MedSource
  dateAdded : Nat
deriving DecidableEq

/-- The slice of `App` state the analysis-invalidation claim concerns: the
cabinet, the held analysis result, and the in-flight `runAnalysis` calls.
The held result is stored together with the medication list the completed
request was computed from (`analyzeInteractions(medications, …)` captures
the list at call time), so that "derived from the current list" is a
statement about the state.  `inflight` records, for each started and not
yet resolved `runAnalysis`, the medication list it captured. -/
structure AppState where
  medications : List Medication
  analysisResult : Option (List Medication × Json)
  inflight : List (List Medication)
deriving DecidableEq

/-- `handleAddMedication` (part_000 lines 46–50); an in-flight promise is
not cancelled by a list change. -/
def handleAddMedication (s : AppState) (m : Medication) : AppState :=
  { medications := s.medications ++ [m], analysisResult := none,
    inflight := s.inflight }

/-- The state-changing events of `App`: the five list mutators plus the
start and the successful resolution (by in-flight index) of
`runAnalysis`. -/
inductive AppEvent where
  | add (m : Medication)
  | update (m : Medication)
  | remove (id : Str)
  | clear : AppEvent
  | scanComplete (ms : List Medication)
  | analysisStarted : AppEvent
  | analysisDone (i : Nat) (r : Json)

/-- One `App` state transition (part_000 lines 46–92): each handler as
written in the source; `scanComplete` adds each scanned medication through
`handleAddMedication`; `analysisStarted` models `runAnalysis` past its
empty-list early return — it captures the current list into the closure and
clears the held result; `analysisDone i` models the resolution of the
`i`-th in-flight request — `setAnalysisResult(result)` runs unconditionally
and the result was computed from the list captured when that request
started, not from the list current at resolution time. -/
def appStep (s : AppState) : AppEvent → AppState
  | .add m => handleAddMedication s m
  | .update m =>
    { medications := s.medications.map (fun x => if x.id = m.id then m else x),
      analysisResult := none, inflight := s.inflight }
  | .remove i =>
    { medications := s.medications.filter (fun x => decide (x.id ≠ i)),
      analysisResult := none, inflight := s.inflight }
  | .clear => { medications := [], analysisResult := none,
                inflight := s.inflight }
  | .scanComplete ms => ms.foldl handleAddMedication s
  | .analysisStarted =>
    if s.medications.isEmpty then s
    else { s with analysisResult := none,
                  inflight := s.medications :: s.inflight }
  | .analysisDone i r =>
    match s.inflight.get? i with
    | some ms0 =>
      { medications := s.medications,
        analysisResult := some (ms0, r),
        inflight := s.inflight.eraseIdx i }
    | none => s

/-- States reachable from app start (a loaded cabinet, no held result, no
in-flight analysis). -/
inductive Reachable : AppState → Prop where
  | start (ms : List Medication) : Reachable ⟨ms, none, []⟩
  | step {s : AppState} (e : AppEvent) : Reachable s → Reachable (appStep s e)

/-! ### Derived notions used only in theorem statements -/

/-- The primary tier of `verifyMedicationSpelling` fails: the grounded
request throws, returns empty text, or returns unextractable text. -/
def primaryFails : ProviderResult → Bool
  | .throw _ => true
  | .reply t =>
    falsyText t ||
    (match extractJson (t.getD []) .array with
     | .ok _ => false
     | .error _ => true)

/-- The fallback tier of `verifyMedicationSpelling` fails to produce a
corrected list (and therefore returns the input unchanged). -/
def secondaryFails : ProviderResult → Bool
  | .throw _ => true
  | .reply t =>
    falsyText t ||
    (match extractJson (t.getD []) .array with
     | .ok _ => false
     | .error _ => true)

/-- A concrete medication record used in witness statements. -/
def witnessMed : Medication :=
  { id := "m1".toList, name := "Aspirin".toList, dosage := "75mg".toList,
    frequency := "Once Daily".toList, duration := none, instructions := none,
    prescriber := none, source := .manual, dateAdded := 0 }

/-- The value `analyzeInteractionsV1` produces for the provider response
`{"interactions": []}`: the three defaulted sub-objects are added, but
`lifestyleWarnings` and `summary` are not. -/
def v1DefaultedExample : Json :=
  Json.obj [(interactionsKey, Json.arr []),
            (indicationChecksKey, Json.arr []),
            (dietPlanKey, defaultDietPlan),
            (lifestylePlanKey, defaultLifestylePlan)]

/-- One Markdown code-fence wrap, as emitted by the provider:
an opening ```` ```json ```` line and a closing ```` ``` ```` line. -/
def wrapFence (s : Str) : Str :=
  "```json\n".toList ++ s ++ "\n```".toList

/-- `k` nested code-fence wraps. -/
def iterWrap : Nat → Str → Str
  | 0, s => s
  | k + 1, s => wrapFence (iterWrap k s)

/-- Does the text contain three consecutive backticks anywhere? -/
def hasTriple : Str → Bool
  | [] => false
  | c :: t => isFence3At (c :: t) || hasTriple t

/-- The `k` concatenated opening fences ```` ```json\n ```` produced by
`iterWrap`. -/
def opensRep : Nat → Str
  | 0 => []
  | k + 1 =>
    btick :: btick :: btick :: 'j' :: 's' :: 'o' :: 'n' :: '\n' :: opensRep k

/-- The `k` concatenated closing fences ```` \n``` ```` produced by
`iterWrap`. -/
def closersRep : Nat → Str
  | 0 => []
  | k + 1 => '\n' :: btick :: btick :: btick :: closersRep k

/-- `k` newline characters. -/
def nlRep (k : Nat) : Str := List.replicate k '\n'

/-- Extend the remainder of a successful fuelled parse by `w`; failure and
fuel exhaustion are unchanged. -/
def prExt {α : Type} (w : Str) : PR (α × Str) → PR (α × Str)
  | .ok (v, r) => .ok (v, r ++ w)
  | .fail => .fail
  | .out => .out

/-- Extend the remainder of a successful `Option`-valued parse by `w`. -/
def opExt {α : Type} (w : Str) : Option (α × Str) → Option (α × Str)
  | some (v, r) => some (v, r ++ w)
  | none => none

/-! ## Theorems -/

/-- C10: `extractJson` called with expected shape `'object'` on the literal
text `"null"` returns `null` — `typeof null === 'object'` and
`!Array.isArray(null)` both hold, so the direct-parse type check accepts it
— and `null` is not an object, so the `'object'` postcondition of the
normalizer does not exclude `null`. -/
theorem extractJson_object_accepts_null :
    extractJson "null".toList JKind.object = .ok Json.null ∧
    ∀ fs, Json.null ≠ Json.obj fs := by
  refine ⟨rfl, ?_⟩
  intro fs h
  cases h

/-- C3: `extractJson` is total up to its one typed error: on every input
and every expected shape it either returns a parsed value or fails with a
malformed-response error naming the expected shape; in particular, when
the direct parse fails and no opening bracket of the expected kind exists,
it fails with the `"No valid JSON ${type} found in response."` error. -/
theorem extractJson_total_malformed (text : Str) (k : JKind) :
    ((∃ v, extractJson text k = .ok v) ∨
     (∃ e, extractJson text k = .error e ∧ ExtractErr.shape e = k)) ∧
    (jparse (jsClean text) = none →
      firstIdx (startCharOf k) (jsClean text) = none →
      extractJson text k = .error (.noJson k)) := by
  have hh : ∀ clean : Str,
      (∃ v, heuristicExtract clean k = .ok v) ∨
      (∃ e, heuristicExtract clean k = .error e ∧ ExtractErr.shape e = k) := by
    intro clean
    unfold heuristicExtract
    split
    · split
      · split
        · exact Or.inl ⟨_, rfl⟩
        · exact Or.inr ⟨_, rfl, rfl⟩
      · exact Or.inr ⟨_, rfl, rfl⟩
    · exact Or.inr ⟨_, rfl, rfl⟩
    · exact Or.inr ⟨_, rfl, rfl⟩
    · exact Or.inr ⟨_, rfl, rfl⟩
  constructor
  · unfold extractJson
    split
    · split
      · exact Or.inl ⟨_, rfl⟩
      · exact hh _
    · exact hh _
  · intro hnone hidx
    unfold extractJson
    rw [hnone]
    unfold heuristicExtract
    rw [hidx]
    rcases lastIdx (endCharOf k) (jsClean text) with _ | j <;> rfl

/-- C4: when the access credential is absent or empty, each of the four
operations — scan, verification, analysis (both revisions) and chat —
fails immediately with the missing-credential error while performing zero
network invocations; and the independently callable synchronous check
`validateApiKey` also reports the credential unusable. -/
theorem missing_credential_preflight (env : Env) (h : credMissing env = true) :
    (∀ r, analyzePrescriptionImage env r = (.error missingKeyMsg, 0)) ∧
    (∀ p s meds, verifyMedicationSpelling env p s meds = (.error missingKeyMsg, 0)) ∧
    (∀ r, analyzeInteractionsV1 env r = (.error missingKeyMsg, 0)) ∧
    (∀ rs rw, analyzeInteractionsAgentic env rs rw = (.error missingKeyMsg, 0)) ∧
    (∀ r msg hist, sendChatMessage env r msg hist = (.error missingKeyMsg, 0)) ∧
    validateApiKey env = false := by
  refine ⟨fun r => ?_, fun p s meds => ?_, fun r => ?_, fun rs rw => ?_,
         fun r msg hist => ?_, ?_⟩
  · unfold analyzePrescriptionImage; rw [h]; rfl
  · unfold verifyMedicationSpelling; rw [h]; rfl
  · unfold analyzeInteractionsV1; rw [h]; rfl
  · unfold analyzeInteractionsAgentic; rw [h]; rfl
  · unfold sendChatMessage; rw [h]; rfl
  · match env, h with
    | none, _ => rfl
    | some k, h =>
      have hk : k = [] := by
        have := h
        unfold credMissing at this
        exact of_decide_eq_true this
      subst hk
      rfl

/-- Witness for C4 at the concrete environments `undefined` and `""`. -/
theorem missing_credential_preflight_witness :
    credMissing none = true ∧ credMissing (some []) = true ∧
    analyzePrescriptionImage none (.reply (some "[]".toList)) =
      (.error missingKeyMsg, 0) ∧
    verifyMedicationSpelling none (.throw "x".toList) (.throw "y".toList)
      (Json.arr []) = (.error missingKeyMsg, 0) ∧
    analyzeInteractionsV1 none (.reply (some "\x7b\x7d".toList)) =
      (.error missingKeyMsg, 0) ∧
    analyzeInteractionsAgentic (some []) (.throw "x".toList)
      (.throw "y".toList) = (.error missingKeyMsg, 0) ∧
    sendChatMessage none (.reply (some "hi".toList)) "q".toList [] =
      (.error missingKeyMsg, 0) ∧
    validateApiKey none = false := by
  have h1 := missing_credential_preflight none (by rfl)
  have h2 := missing_credential_preflight (some []) (by rfl)
  exact ⟨rfl, rfl, h1.1 _, h1.2.1 _ _ _, h1.2.2.1 _, h2.2.2.2.1 _ _,
         h1.2.2.2.2.1 _ _ _, h1.2.2.2.2.2⟩

/-- The fallback tier returns the input unchanged whenever it fails. -/
theorem verifyFallback_of_fails (s : ProviderResult) (meds : Json)
    (h : secondaryFails s = true) : verifyFallback s meds = meds := by
  cases s with
  | throw m => rfl
  | reply t =>
    simp only [secondaryFails] at h
    simp only [verifyFallback]
    cases hft : falsyText t with
    | true => simp [hft]
    | false =>
      rw [hft] at h
      simp only [Bool.false_or] at h
      simp only [hft, Bool.false_eq_true, if_false]
      split
      · rename_i v hv
        rw [hv] at h
        cases h
      · rfl


/-- C5: two-tier degradation of `verifyMedicationSpelling` (credential
present): the operation never rejects; any failure of the grounded primary
tier silently falls back to the ungrounded secondary tier; and when both
tiers fail the original input list is returned unmodified. -/
theorem verify_two_tier (env : Env) (p s : ProviderResult) (meds : Json)
    (h : credMissing env = false) :
    (∃ v, (verifyMedicationSpelling env p s meds).1 = .ok v) ∧
    (primaryFails p = true →
      verifyMedicationSpelling env p s meds = (.ok (verifyFallback s meds), 2)) ∧
    (primaryFails p = true → secondaryFails s = true →
      (verifyMedicationSpelling env p s meds).1 = .ok meds) := by
  have hstep :
      primaryFails p = true →
      verifyMedicationSpelling env p s meds = (.ok (verifyFallback s meds), 2) := by
    intro hp
    cases p with
    | throw m => simp [verifyMedicationSpelling, h]
    | reply t =>
      simp only [primaryFails] at hp
      simp only [verifyMedicationSpelling, h, Bool.false_eq_true, if_false]
      cases hft : falsyText t with
      | true => simp [hft]
      | false =>
        rw [hft] at hp
        simp only [Bool.false_or] at hp
        simp only [hft, Bool.false_eq_true, if_false]
        split
        · rename_i v hv
          rw [hv] at hp
          cases hp
        · rfl
  refine ⟨?_, hstep, fun hp hs => ?_⟩
  · cases hp : primaryFails p with
    | true => exact ⟨_, by rw [hstep hp]⟩
    | false =>
      cases p with
      | throw m => simp [primaryFails] at hp
      | reply t =>
        simp only [primaryFails] at hp
        cases hft : falsyText t with
        | true => simp [hft] at hp
        | false =>
          rw [hft] at hp
          simp only [Bool.false_or] at hp
          simp only [verifyMedicationSpelling, h, Bool.false_eq_true, if_false,
            hft]
          split
          · rename_i v hv
            exact ⟨v, rfl⟩
          · rename_i e hv
            rw [hv] at hp
            cases hp
  · rw [hstep hp, verifyFallback_of_fails s meds hs]

/-- Witness for C5: with a present credential and both tiers throwing, the
operation returns the original input list. -/
theorem verify_two_tier_witness :
    credMissing (some "k".toList) = false ∧
    primaryFails (.throw "boom".toList) = true ∧
    secondaryFails (.throw "crash".toList) = true ∧
    (verifyMedicationSpelling (some "k".toList) (.throw "boom".toList)
      (.throw "crash".toList) (Json.arr [Json.str "Aspirin".toList])).1 =
      .ok (Json.arr [Json.str "Aspirin".toList]) := by
  refine ⟨rfl, rfl, rfl, ?_⟩
  exact (verify_two_tier (some "k".toList) (.throw "boom".toList)
    (.throw "crash".toList) (Json.arr [Json.str "Aspirin".toList]) rfl).2.2 rfl rfl

/-- C6: all-or-nothing join of the agentic analysis (credential present):
if either concurrent sub-request rejects, the whole operation rejects with
a single failure message — the credential-shaped message or the generic
one — and no partial result is produced. -/
theorem agentic_all_or_nothing (env : Env) (rs rw : ProviderResult)
    (h : credMissing env = false)
    (hfail : (∃ m, runAgentOutcome rs = .error m) ∨
             (∃ m, runAgentOutcome rw = .error m)) :
    ∃ msg, analyzeInteractionsAgentic env rs rw = (.error msg, 2) ∧
      (msg = invalidKeyMsg ∨ msg = agenticFailedMsg) := by
  have hcatch : ∀ m : Str, agenticCatch m = invalidKeyMsg ∨
      agenticCatch m = agenticFailedMsg := by
    intro m
    unfold agenticCatch
    split
    · exact Or.inl rfl
    · exact Or.inr rfl
  simp only [analyzeInteractionsAgentic, h, Bool.false_eq_true, if_false]
  rcases hfail with ⟨m, hm⟩ | ⟨m, hm⟩
  · rw [hm]
    cases runAgentOutcome rw <;> exact ⟨_, rfl, hcatch m⟩
  · cases hs : runAgentOutcome rs with
    | error m2 => exact ⟨_, rfl, hcatch m2⟩
    | ok a => rw [hm]; exact ⟨_, rfl, hcatch m⟩

/-- Witness for C6: the clinical-safety branch throws while the wellness
branch succeeds; the whole operation rejects with the generic failure. -/
theorem agentic_all_or_nothing_witness :
    credMissing (some "k".toList) = false ∧
    runAgentOutcome (.throw "socket hang up".toList) =
      .error "socket hang up".toList ∧
    (∃ msg, analyzeInteractionsAgentic (some "k".toList)
        (.throw "socket hang up".toList) (.reply (some "\x7b\x7d".toList)) =
        (.error msg, 2) ∧ (msg = invalidKeyMsg ∨ msg = agenticFailedMsg)) := by
  refine ⟨rfl, rfl, ?_⟩
  exact agentic_all_or_nothing (some "k".toList) (.throw "socket hang up".toList)
    (.reply (some "\x7b\x7d".toList)) rfl (Or.inl ⟨_, rfl⟩)

/-- C7: a scan whose extracted medication list is empty fails with the
no-medications-found message (the "try a clearer image" condition) and the
review stage is never reached with an empty list, in both scanner
revisions. -/
theorem scan_empty_fails (images : List ScannedImage) (h : images ≠ []) :
    (handleAnalyzeAll images (.ok []) = .failed noMedsMsg) ∧
    (∀ outcome meds, handleAnalyzeAll images outcome = .review meds →
      meds ≠ []) ∧
    (∀ details gen,
      handleAnalyzeAllV2 images (.ok ([], details)) gen = .failed noMedsMsg) ∧
    (∀ outcome gen meds details,
      handleAnalyzeAllV2 images outcome gen = .review meds details →
      meds ≠ []) := by
  have hne : images.isEmpty = false := by
    cases images with
    | nil => exact absurd rfl h
    | cons a l => rfl
  refine ⟨?_, ?_, ?_, ?_⟩
  · simp [handleAnalyzeAll, hne]
  · intro outcome meds hrev
    cases outcome with
    | error m =>
      simp only [handleAnalyzeAll, hne, Bool.false_eq_true, if_false] at hrev
      cases hrev
    | ok l =>
      simp only [handleAnalyzeAll, hne, Bool.false_eq_true, if_false] at hrev
      cases hl : l.isEmpty with
      | true => rw [hl] at hrev; cases hrev
      | false =>
        rw [hl] at hrev
        simp only [Bool.false_eq_true, if_false, ScanStep.review.injEq] at hrev
        subst hrev
        intro hmeds
        rw [hmeds] at hl
        cases hl
  · intro details gen
    simp [handleAnalyzeAllV2, hne]
  · intro outcome gen meds details hrev
    cases outcome with
    | error m =>
      simp only [handleAnalyzeAllV2, hne, Bool.false_eq_true, if_false] at hrev
      cases hrev
    | ok pr =>
      rcases pr with ⟨l, det⟩
      simp only [handleAnalyzeAllV2, hne, Bool.false_eq_true, if_false] at hrev
      cases hl : l.isEmpty with
      | true => rw [hl] at hrev; cases hrev
      | false =>
        rw [hl] at hrev
        simp only [Bool.false_eq_true, if_false, ScanStepV2.review.injEq] at hrev
        rcases hrev with ⟨hm, hd⟩
        subst hm
        intro hmeds
        rcases l with _ | ⟨x, l⟩
        · cases hl
        · cases hmeds

/-- Witness for C7: one captured image whose scan extracts zero
medications produces the no-medications failure. -/
theorem scan_empty_fails_witness :
    (([⟨"img1".toList, "QUJD".toList, "image/jpeg".toList⟩] :
        List ScannedImage) ≠ []) ∧
    handleAnalyzeAll [⟨"img1".toList, "QUJD".toList, "image/jpeg".toList⟩]
      (.ok []) = .failed noMedsMsg := by
  refine ⟨List.cons_ne_nil _ _, ?_⟩
  exact (scan_empty_fails [⟨"img1".toList, "QUJD".toList, "image/jpeg".toList⟩]
    (List.cons_ne_nil _ _)).1

/-- `find?` over an upserted field list hits the new pair. -/
theorem find?_filter_append (fs : List (Str × Json)) (k : Str) (v : Json) :
    List.find? (fun p => decide (p.1 = k))
      (fs.filter (fun p => decide (p.1 ≠ k)) ++ [(k, v)]) = some (k, v) := by
  induction fs with
  | nil =>
    simp only [List.filter_nil, List.nil_append]
    exact List.find?_cons_of_pos _ (by simp)
  | cons a rest ih =>
    rcases a with ⟨k1, v1⟩
    by_cases hk : k1 = k
    · subst hk
      simp only [List.filter_cons]
      rw [if_neg (by simp)]
      exact ih
    · simp only [List.filter_cons]
      rw [if_pos (by simp [hk]), List.cons_append,
        List.find?_cons_of_neg _ (by simp [hk])]
      exact ih

/-- `find?` for a different key is unaffected by an upsert. -/
theorem find?_filter_append_ne (fs : List (Str × Json)) (k k' : Str)
    (v : Json) (h : k' ≠ k) :
    List.find? (fun p => decide (p.1 = k'))
      (fs.filter (fun p => decide (p.1 ≠ k)) ++ [(k, v)]) =
    List.find? (fun p => decide (p.1 = k')) fs := by
  induction fs with
  | nil =>
    simp only [List.filter_nil, List.nil_append, List.find?_nil]
    rw [List.find?_cons_of_neg _ (by simp [Ne.symm h])]
    rfl
  | cons a rest ih =>
    rcases a with ⟨k1, v1⟩
    by_cases h1 : k1 = k'
    · subst h1
      simp only [List.filter_cons]
      rw [if_pos (by simp [h]), List.cons_append,
        List.find?_cons_of_pos _ (by simp),
        List.find?_cons_of_pos _ (by simp)]
    · by_cases h2 : k1 = k
      · subst h2
        simp only [List.filter_cons]
        rw [if_neg (by simp), List.find?_cons_of_neg _ (by simp [h1])]
        exact ih
      · simp only [List.filter_cons]
        rw [if_pos (by simp [h2]), List.cons_append,
          List.find?_cons_of_neg _ (by simp [h1]),
          List.find?_cons_of_neg _ (by simp [h1])]
        exact ih

/-- Reading back the field just assigned. -/
theorem jsGet_setField_self (fs : List (Str × Json)) (k : Str) (v : Json) :
    jsGet (setField (.obj fs) k v) k = some v := by
  simp only [setField, objUpsert, jsGet]
  rw [find?_filter_append]
  simp

/-- Assignment leaves other fields unchanged. -/
theorem jsGet_setField_ne (fs : List (Str × Json)) (k : Str) (v : Json)
    (k' : Str) (h : k' ≠ k) :
    jsGet (setField (.obj fs) k v) k' = jsGet (.obj fs) k' := by
  simp only [setField, objUpsert, jsGet]
  rw [find?_filter_append_ne _ _ _ _ h]

/-- Defaulting keeps the value an object. -/
theorem defaultField_is_obj (fs : List (Str × Json)) (k : Str) (d : Json) :
    ∃ fs2, defaultField (.obj fs) k d = .obj fs2 := by
  unfold defaultField
  split
  · exact ⟨_, rfl⟩
  · exact ⟨fs, rfl⟩

/-- After `if (!o.k) o.k = d`, the field `k` is present. -/
theorem jsGet_defaultField_self (fs : List (Str × Json)) (k : Str) (d : Json) :
    jsGet (defaultField (.obj fs) k d) k ≠ none := by
  unfold defaultField
  split
  · rw [jsGet_setField_self]
    intro hc
    cases hc
  · rename_i hof
    cases hg : jsGet (.obj fs) k with
    | none => rw [hg] at hof; exact absurd rfl hof
    | some w => intro hc; cases hc

/-- Defaulting one field preserves presence of another. -/
theorem jsGet_defaultField_pres (fs : List (Str × Json)) (k : Str) (d : Json)
    (k' : Str) (h : k' ≠ k) (hp : jsGet (.obj fs) k' ≠ none) :
    jsGet (defaultField (.obj fs) k d) k' ≠ none := by
  unfold defaultField
  split
  · rw [jsGet_setField_ne _ _ _ _ h]
    exact hp
  · exact hp

/-- Reading the head field of an object literal. -/
theorem jsGet_cons_self (k : Str) (v : Json) (fs : List (Str × Json)) :
    jsGet (Json.obj ((k, v) :: fs)) k = some v := by
  simp only [jsGet]
  rw [List.find?_cons_of_pos _ (by simp)]
  rfl

/-- Skipping a non-matching head field of an object literal. -/
theorem jsGet_cons_ne (k1 : Str) (v1 : Json) (fs : List (Str × Json))
    (k' : Str) (h : ¬(k1 = k')) :
    jsGet (Json.obj ((k1, v1) :: fs)) k' = jsGet (Json.obj fs) k' := by
  simp only [jsGet]
  rw [List.find?_cons_of_neg _ (by simp [h])]

/-- A successful `firstIdx` splits the list at the first occurrence. -/
theorem firstIdx_split (c : Char) : ∀ (l : Str) (i : Nat),
    firstIdx c l = some i → ∃ pre post, l = pre ++ c :: post ∧ pre.length = i
  | [], i, h => by cases h
  | x :: t, i, h => by
    by_cases hx : x = c
    · subst hx
      simp only [firstIdx, if_true, Option.some.injEq] at h
      exact ⟨[], t, rfl, h⟩
    · simp only [firstIdx] at h
      rw [if_neg hx] at h
      cases hft : firstIdx c t with
      | none => rw [hft] at h; cases h
      | some i2 =>
        rw [hft] at h
        have hi : i2 + 1 = i := by simpa using h
        obtain ⟨pre, post, hl, hlen⟩ := firstIdx_split c t i2 hft
        refine ⟨x :: pre, post, by simp [hl], ?_⟩
        simp only [List.length_cons]
        omega

/-- The substring taken by the heuristic starts at the located character. -/
theorem substr_cons (pre post : Str) (c : Char) (j : Nat)
    (hj : pre.length < j) :
    ∃ rest, substr (pre ++ c :: post) pre.length j = c :: rest := by
  unfold substr
  have h1 : j = pre.length + (j - pre.length) := by omega
  rw [h1, List.take_append]
  have h2 : j - pre.length = (j - pre.length - 1) + 1 := by omega
  rw [h2, List.take_succ_cons, List.drop_left]
  exact ⟨_, rfl⟩

/-- A value parsed from input starting with a brace is an object. -/
theorem parseVal_brace_obj (f : Nat) (t : Str) (v : Json) (r : Str)
    (h : parseVal f ('{' :: t) = .ok (v, r)) : ∃ fs, v = .obj fs := by
  match f with
  | 0 => cases h
  | Nat.succ f =>
    simp only [parseVal, if_true] at h
    split at h
    · cases h
    · split at h
      · cases h
        exact ⟨[], rfl⟩
      · split at h
        · cases h
          exact ⟨_, rfl⟩
        · cases h
        · cases h

/-- `JSON.parse` of text starting with a brace yields an object. -/
theorem jparse_brace_obj (t : Str) (v : Json)
    (h : jparse ('{' :: t) = some v) : ∃ fs, v = .obj fs := by
  unfold jparse at h
  rw [show skipWs ('{' :: t) = '{' :: t by
    rw [skipWs, List.dropWhile_cons, if_neg (by decide)]] at h
  cases hpv : parseVal (2 * ('{' :: t).length + 2) ('{' :: t) with
  | ok p =>
    rcases p with ⟨w, rest⟩
    simp only [hpv] at h
    have hw : w = v := by
      by_cases hall : rest.all isJsonWs = true
      · rw [if_pos hall] at h
        cases h
        rfl
      · rw [if_neg hall] at h
        cases h
    subst hw
    exact parseVal_brace_obj _ _ _ _ hpv
  | fail => simp only [hpv] at h; cases h
  | out => simp only [hpv] at h; cases h

/-- The heuristic pass with expected shape `'object'` only ever produces
objects (the parsed substring starts at a brace). -/
theorem heuristicExtract_object_shape (clean : Str) (v : Json)
    (h : heuristicExtract clean .object = .ok v) : ∃ fs, v = .obj fs := by
  unfold heuristicExtract at h
  cases hfi : firstIdx (startCharOf .object) clean with
  | none =>
    cases hla : lastIdx (endCharOf .object) clean with
    | none => simp only [hfi, hla] at h; cases h
    | some j => simp only [hfi, hla] at h; cases h
  | some i =>
    cases hla : lastIdx (endCharOf .object) clean with
    | none => simp only [hfi, hla] at h; cases h
    | some j =>
      simp only [hfi, hla] at h
      by_cases hij : i < j
      · rw [if_pos hij] at h
        obtain ⟨pre, post, hl, hlen⟩ := firstIdx_split _ _ _ hfi
        subst hlen
        obtain ⟨rest, hsub⟩ := substr_cons pre post _ (j + 1) (by omega)
        rw [hl, hsub] at h
        rw [show startCharOf JKind.object = '{' from rfl] at h
        cases hjp : jparse ('{' :: rest) with
        | none => rw [hjp] at h; cases h
        | some w =>
          rw [hjp] at h
          cases h
          exact jparse_brace_obj _ _ hjp
      · rw [if_neg hij] at h
        cases h

/-- `extractJson` with expected shape `'object'` returns `null` or an
object — nothing else. -/
theorem extractJson_object_shape (text : Str) (v : Json)
    (h : extractJson text .object = .ok v) :
    v = Json.null ∨ ∃ fs, v = Json.obj fs := by
  unfold extractJson at h
  cases hj : jparse (jsClean text) with
  | none =>
    simp only [hj] at h
    exact Or.inr (heuristicExtract_object_shape _ _ h)
  | some w =>
    simp only [hj] at h
    by_cases ha : accepts .object w = true
    · rw [if_pos ha] at h
      injection h with hv
      subst hv
      cases w with
      | null => exact Or.inl rfl
      | obj fs => exact Or.inr ⟨fs, rfl⟩
      | bool b => simp [accepts] at ha
      | num l => simp [accepts] at ha
      | str s2 => simp [accepts] at ha
      | arr xs => simp [accepts] at ha
    · rw [if_neg ha] at h
      exact Or.inr (heuristicExtract_object_shape _ _ h)

/-- C8 counterexample: on the provider response `{"interactions": []}` —
which omits every optional sub-object — the single-call analysis operation
returns successfully, but the returned result still has no
`lifestyleWarnings` and no `summary` field: those two are not defaulted. -/
theorem analysis_omitted_fields_counterexample :
    analyzeInteractionsV1 (some "k".toList)
        (.reply (some "\x7b\"interactions\": []\x7d".toList)) =
      (.ok v1DefaultedExample, 1) ∧
    jsGet v1DefaultedExample lifestyleWarningsKey = none ∧
    jsGet v1DefaultedExample summaryKey = none :=
  ⟨rfl, rfl, rfl⟩

/-- C8 (amended): every successful result of the single-call analysis has
`interactions` present and the sub-objects `indicationChecks`, `dietPlan`
and `lifestylePlan` defaulted when omitted — but not `lifestyleWarnings`
or `summary` — while every successful result of the agentic revision has
all six components present. -/
theorem analysis_defaults_amended :
    (∀ (env : Env) (r : ProviderResult) (j : Json) (n : Nat),
      analyzeInteractionsV1 env r = (.ok j, n) →
      jsGet j interactionsKey ≠ none ∧ jsGet j indicationChecksKey ≠ none ∧
      jsGet j dietPlanKey ≠ none ∧ jsGet j lifestylePlanKey ≠ none) ∧
    (∀ (env : Env) (rs rw : ProviderResult) (j : Json) (n : Nat),
      analyzeInteractionsAgentic env rs rw = (.ok j, n) →
      jsGet j interactionsKey ≠ none ∧ jsGet j indicationChecksKey ≠ none ∧
      jsGet j summaryKey ≠ none ∧ jsGet j dietPlanKey ≠ none ∧
      jsGet j lifestylePlanKey ≠ none ∧ jsGet j lifestyleWarningsKey ≠ none) := by
  constructor
  · intro env r j n h
    cases hcm : credMissing env with
    | true =>
      unfold analyzeInteractionsV1 at h
      rw [hcm] at h
      simp at h
    | false =>
      cases r with
      | throw m =>
        unfold analyzeInteractionsV1 at h
        rw [hcm] at h
        simp at h
      | reply t =>
        unfold analyzeInteractionsV1 at h
        rw [hcm] at h
        simp only [Bool.false_eq_true, if_false] at h
        split at h
        · simp at h
        · cases hex : extractJson (t.getD []) .object with
          | error e => simp only [hex] at h; simp at h
          | ok j0 =>
            simp only [hex] at h
            split at h
            · simp at h
            · rename_i hnull
              split at h
              · simp at h
              · rename_i hguard
                simp only [Prod.mk.injEq, Except.ok.injEq] at h
                obtain ⟨hj, _⟩ := h
                subst hj
                have hshape := extractJson_object_shape _ _ hex
                rcases hshape with hn | ⟨fs0, hfs0⟩
                · subst hn
                  exact absurd rfl hnull
                subst hfs0
                have hbase : jsGet (.obj fs0) interactionsKey ≠ none := by
                  intro hc
                  rw [hc] at hguard
                  exact hguard rfl
                obtain ⟨fs1, e1⟩ :=
                  defaultField_is_obj fs0 indicationChecksKey (Json.arr [])
                have e2base :
                    defaultField (defaultField (.obj fs0) indicationChecksKey
                      (Json.arr [])) dietPlanKey defaultDietPlan =
                    defaultField (.obj fs1) dietPlanKey defaultDietPlan := by
                  rw [e1]
                obtain ⟨fs2, e2⟩ :=
                  defaultField_is_obj fs1 dietPlanKey defaultDietPlan
                have e3base :
                    defaultField (defaultField (defaultField (.obj fs0)
                        indicationChecksKey (Json.arr [])) dietPlanKey
                        defaultDietPlan) lifestylePlanKey defaultLifestylePlan =
                    defaultField (.obj fs2) lifestylePlanKey
                      defaultLifestylePlan := by
                  rw [e2base, e2]
                refine ⟨?_, ?_, ?_, ?_⟩
                · rw [e3base]
                  refine jsGet_defaultField_pres _ _ _ _ (by decide) ?_
                  have hA : jsGet (defaultField (.obj fs0) indicationChecksKey
                      (Json.arr [])) interactionsKey ≠ none :=
                    jsGet_defaultField_pres _ _ _ _ (by decide) hbase
                  rw [e1] at hA
                  have hB : jsGet (defaultField (.obj fs1) dietPlanKey
                      defaultDietPlan) interactionsKey ≠ none :=
                    jsGet_defaultField_pres _ _ _ _ (by decide) hA
                  rw [e2] at hB
                  exact hB
                · rw [e3base]
                  refine jsGet_defaultField_pres _ _ _ _ (by decide) ?_
                  have hA : jsGet (defaultField (.obj fs0) indicationChecksKey
                      (Json.arr [])) indicationChecksKey ≠ none :=
                    jsGet_defaultField_self _ _ _
                  rw [e1] at hA
                  have hB : jsGet (defaultField (.obj fs1) dietPlanKey
                      defaultDietPlan) indicationChecksKey ≠ none :=
                    jsGet_defaultField_pres _ _ _ _ (by decide) hA
                  rw [e2] at hB
                  exact hB
                · rw [e3base]
                  refine jsGet_defaultField_pres _ _ _ _ (by decide) ?_
                  have hB : jsGet (defaultField (.obj fs1) dietPlanKey
                      defaultDietPlan) dietPlanKey ≠ none :=
                    jsGet_defaultField_self _ _ _
                  rw [e2] at hB
                  exact hB
                · rw [e3base]
                  exact jsGet_defaultField_self _ _ _
  · intro env rs rw j n h
    cases hcm : credMissing env with
    | true =>
      unfold analyzeInteractionsAgentic at h
      rw [hcm] at h
      simp at h
    | false =>
      unfold analyzeInteractionsAgentic at h
      rw [hcm] at h
      simp only [Bool.false_eq_true, if_false] at h
      cases hra : runAgentOutcome rs with
      | error m => simp only [hra] at h; simp at h
      | ok a =>
        cases hrb : runAgentOutcome rw with
        | error m => simp only [hra, hrb] at h; simp at h
        | ok b =>
          simp only [hra, hrb] at h
          split at h
          · simp at h
          · simp only [Prod.mk.injEq, Except.ok.injEq] at h
            obtain ⟨hj, _⟩ := h
            subst hj
            refine ⟨?_, ?_, ?_, ?_, ?_, ?_⟩
            · unfold mergeAgentResults
              rw [jsGet_cons_self]
              simp
            · unfold mergeAgentResults
              rw [jsGet_cons_ne _ _ _ _ (by decide), jsGet_cons_self]
              simp
            · unfold mergeAgentResults
              rw [jsGet_cons_ne _ _ _ _ (by decide),
                jsGet_cons_ne _ _ _ _ (by decide), jsGet_cons_self]
              simp
            · unfold mergeAgentResults
              rw [jsGet_cons_ne _ _ _ _ (by decide),
                jsGet_cons_ne _ _ _ _ (by decide),
                jsGet_cons_ne _ _ _ _ (by decide), jsGet_cons_self]
              simp
            · unfold mergeAgentResults
              rw [jsGet_cons_ne _ _ _ _ (by decide),
                jsGet_cons_ne _ _ _ _ (by decide),
                jsGet_cons_ne _ _ _ _ (by decide),
                jsGet_cons_ne _ _ _ _ (by decide), jsGet_cons_self]
              simp
            · unfold mergeAgentResults
              rw [jsGet_cons_ne _ _ _ _ (by decide),
                jsGet_cons_ne _ _ _ _ (by decide),
                jsGet_cons_ne _ _ _ _ (by decide),
                jsGet_cons_ne _ _ _ _ (by decide),
                jsGet_cons_ne _ _ _ _ (by decide), jsGet_cons_self]
              simp

/-- Witness for the amended C8 at concrete inputs: the defaulted
single-call result carries the three defaulted sub-objects, and an agentic
run whose two agents both return empty text carries all six components. -/
theorem analysis_defaults_amended_witness :
    analyzeInteractionsV1 (some "k".toList)
        (.reply (some "\x7b\"interactions\": []\x7d".toList)) =
      (.ok v1DefaultedExample, 1) ∧
    jsGet v1DefaultedExample indicationChecksKey ≠ none ∧
    jsGet v1DefaultedExample dietPlanKey ≠ none ∧
    jsGet v1DefaultedExample lifestylePlanKey ≠ none ∧
    analyzeInteractionsAgentic (some "k".toList) (.reply none) (.reply none) =
      (.ok (mergeAgentResults (Json.obj []) (Json.obj [])), 2) ∧
    jsGet (mergeAgentResults (Json.obj []) (Json.obj [])) summaryKey ≠ none ∧
    jsGet (mergeAgentResults (Json.obj []) (Json.obj []))
      lifestyleWarningsKey ≠ none := by
  have h1 := analysis_defaults_amended.1 (some "k".toList)
    (.reply (some "\x7b\"interactions\": []\x7d".toList))
    v1DefaultedExample 1 rfl
  have h2 := analysis_defaults_amended.2 (some "k".toList) (.reply none)
    (.reply none) (mergeAgentResults (Json.obj []) (Json.obj [])) 2 rfl
  exact ⟨rfl, h1.2.1, h1.2.2.1, h1.2.2.2, rfl, h2.2.2.1, h2.2.2.2.2.2⟩



/-- `firstIdx` finds the first occurrence. -/
theorem firstIdx_append (c : Char) :
    ∀ (pre post : Str), c ∉ pre →
      firstIdx c (pre ++ c :: post) = some pre.length
  | [], post, _ => by simp [firstIdx]
  | x :: pre, post, h => by
    have hx : ¬(x = c) := fun hc => h (hc ▸ List.mem_cons_self x pre)
    have hrec := firstIdx_append c pre post (fun hm => h (List.mem_cons_of_mem x hm))
    simp only [List.cons_append, firstIdx, if_neg hx, List.append_eq, hrec,
      List.length_cons]
    rfl

/-- The middle chunk of a three-part split, as taken by `substring`. -/
theorem substr_middle (pre arr post : Str) :
    substr (pre ++ arr ++ post) pre.length (pre.length + arr.length) = arr := by
  unfold substr
  rw [show pre.length + arr.length = (pre ++ arr).length by
    simp [List.length_append]]
  rw [List.take_left, List.drop_left]

/-- C2: when the cleaned response text is a valid JSON array (respectively
object) embedded in surrounding prose — the prose before it containing no
opening bracket of the expected kind, the prose after it no closing one,
and the whole text not parsing directly — `extractJson` recovers exactly
the embedded value, by parsing the substring from the first opening
bracket to the last closing bracket. -/
theorem extract_embedded (text : Str) (k : JKind) (pre arr post : Str)
    (v : Json)
    (hclean : jsClean text = pre ++ arr ++ post)
    (hdirect : jparse (jsClean text) = none)
    (hpre : startCharOf k ∉ pre)
    (hpost : endCharOf k ∉ post)
    (hhead : arr.head? = some (startCharOf k))
    (hlast : arr.getLast? = some (endCharOf k))
    (hparse : jparse arr = some v) :
    extractJson text k = .ok v := by
  obtain ⟨arrT, harr⟩ : ∃ arrT, arr = startCharOf k :: arrT := by
    cases arr with
    | nil => cases hhead
    | cons a t =>
      simp only [List.head?_cons, Option.some.injEq] at hhead
      exact ⟨t, by rw [hhead]⟩
  have hlen2 : 2 ≤ arr.length := by
    rcases arrT with _ | ⟨b, arrT2⟩
    · rw [harr] at hlast
      simp only [List.getLast?_singleton, Option.some.injEq] at hlast
      cases k <;> cases hlast
    · rw [harr]
      simp only [List.length_cons]
      omega
  obtain ⟨w, hrev⟩ : ∃ w, arr.reverse = endCharOf k :: w := by
    cases hr : arr.reverse with
    | nil =>
      rw [List.reverse_eq_nil_iff] at hr
      rw [hr] at hhead
      cases hhead
    | cons a t =>
      have ha : arr.getLast? = some a := by
        rw [← List.head?_reverse, hr]
        rfl
      rw [ha] at hlast
      injection hlast with he
      exact ⟨t, by rw [he]⟩
  have hfi : firstIdx (startCharOf k) (jsClean text) = some pre.length := by
    rw [hclean, harr, List.append_assoc, List.cons_append]
    exact firstIdx_append _ _ _ hpre
  have hla : lastIdx (endCharOf k) (jsClean text) =
      some ((jsClean text).length - 1 - post.length) := by
    unfold lastIdx
    have hrw : (jsClean text).reverse =
        post.reverse ++ endCharOf k :: (w ++ pre.reverse) := by
      rw [hclean, List.append_assoc, List.reverse_append, List.reverse_append,
        hrev]
      simp
    rw [hrw, firstIdx_append _ _ _ (fun hm => hpost (List.mem_reverse.mp hm))]
    simp [List.length_reverse]
  have hcl : (jsClean text).length = pre.length + arr.length + post.length := by
    rw [hclean]
    simp only [List.length_append]
  rw [hclean] at hdirect hfi hla
  unfold extractJson heuristicExtract
  simp only [hclean, hdirect, hfi, hla]
  have hlen3 : (pre ++ arr ++ post).length =
      pre.length + arr.length + post.length := by
    simp only [List.length_append]
  rw [if_pos (show pre.length < (pre ++ arr ++ post).length - 1 - post.length
    by rw [hlen3]; omega)]
  have hj2 : (pre ++ arr ++ post).length - 1 - post.length + 1 =
      pre.length + arr.length := by
    rw [hlen3]
    omega
  simp only [hj2, substr_middle, hparse]

/-- Adding each scanned medication through `handleAddMedication` leaves the
analysis result cleared, unless the scan delivered no medications at all
(in which case the state is untouched). -/
theorem foldl_add_result : ∀ (ms : List Medication) (s : AppState),
    (ms.foldl handleAddMedication s).analysisResult = none ∨ ms = []
  | [], _ => Or.inr rfl
  | m :: rest, s => by
    rcases foldl_add_result rest (handleAddMedication s m) with h | h
    · exact Or.inl (by simpa using h)
    · subst h
      exact Or.inl rfl

/-- C9 counterexample: a reachable `App` state whose held analysis result
was derived from a list other than the current one.  The trace: the app
starts with the one-medication cabinet; `runAnalysis` starts (capturing
that list); the user adds a medication while the request is in flight
(clearing the held result but not cancelling the promise); the request then
resolves and `setAnalysisResult` stores a result computed from the old
one-element list, although the cabinet now holds two medications. -/
theorem analysis_stale_counterexample :
    Reachable (appStep (appStep (appStep ⟨[witnessMed], none, []⟩
        .analysisStarted) (.add witnessMed))
        (.analysisDone 0 (Json.obj []))) ∧
    (appStep (appStep (appStep ⟨[witnessMed], none, []⟩
        .analysisStarted) (.add witnessMed))
        (.analysisDone 0 (Json.obj []))).analysisResult =
      some ([witnessMed], Json.obj []) ∧
    (appStep (appStep (appStep ⟨[witnessMed], none, []⟩
        .analysisStarted) (.add witnessMed))
        (.analysisDone 0 (Json.obj []))).medications =
      [witnessMed, witnessMed] ∧
    ([witnessMed] : List Medication) ≠ [witnessMed, witnessMed] :=
  ⟨Reachable.step _ (Reachable.step _ (Reachable.step _
      (Reachable.start [witnessMed]))),
    rfl, rfl,
    fun h => List.noConfusion (List.cons.inj h).2⟩

/-- C9 (amended): every operation that changes the medication list — add,
update, remove, clear, and a scan completion delivering at least one
medication — resets the held analysis result to `null`; and a resolving
analysis yields a result derived from the current medication list provided
the list has not changed since that analysis started.  (Unconditionally it
does not: the resolution stores the result computed from the start-time
list, so a list mutation during an in-flight analysis leaves a stale
result — see the counterexample.) -/
theorem meds_change_invalidates_amended (s : AppState) :
    (∀ m, (appStep s (.add m)).analysisResult = none) ∧
    (∀ m, (appStep s (.update m)).analysisResult = none) ∧
    (∀ i, (appStep s (.remove i)).analysisResult = none) ∧
    ((appStep s .clear).analysisResult = none) ∧
    (∀ ms, ms ≠ [] → (appStep s (.scanComplete ms)).analysisResult = none) ∧
    (∀ i r ms0, s.inflight.get? i = some ms0 → ms0 = s.medications →
      ∀ m2 r2,
        (appStep s (.analysisDone i r)).analysisResult = some (m2, r2) →
        m2 = (appStep s (.analysisDone i r)).medications) := by
  refine ⟨fun m => rfl, fun m => rfl, fun i => rfl, rfl, fun ms hms => ?_,
    fun i r ms0 hget hcur m2 r2 hres => ?_⟩
  · rcases foldl_add_result ms s with hn | hempty
    · exact hn
    · exact absurd hempty hms
  · simp only [appStep, hget] at hres ⊢
    simp only [Option.some.injEq, Prod.mk.injEq] at hres
    rw [← hres.1, hcur]

/-- Witness for the amended C9 theorem at a concrete state with one
in-flight analysis that captured the current one-element list: a non-empty
scan completion clears the held result, and the resolving analysis is
derived from the (unchanged) current list. -/
theorem meds_change_invalidates_amended_witness :
    ([witnessMed] : List Medication) ≠ [] ∧
    (appStep ⟨[witnessMed], none, [[witnessMed]]⟩
        (.scanComplete [witnessMed])).analysisResult = none ∧
    [witnessMed] = (appStep ⟨[witnessMed], none, [[witnessMed]]⟩
        (.analysisDone 0 (Json.obj []))).medications :=
  have h := meds_change_invalidates_amended ⟨[witnessMed], none, [[witnessMed]]⟩
  ⟨List.cons_ne_nil _ _,
    h.2.2.2.2.1 [witnessMed] (List.cons_ne_nil _ _),
    h.2.2.2.2.2 0 (Json.obj []) [witnessMed] rfl rfl
      [witnessMed] (Json.obj []) rfl⟩

/-- Witness for C2: prose around an embedded array, at the concrete text
`Sure! Here: [1, 2] thanks.` with expected shape `'array'`. -/
theorem extract_embedded_witness :
    jsClean "Sure! Here: [1, 2] thanks.".toList =
      "Sure! Here: ".toList ++ "[1, 2]".toList ++ " thanks.".toList ∧
    extractJson "Sure! Here: [1, 2] thanks.".toList JKind.array =
      .ok (Json.arr [Json.num "1".toList, Json.num "2".toList]) := by
  refine ⟨rfl, ?_⟩
  exact extract_embedded "Sure! Here: [1, 2] thanks.".toList JKind.array
    "Sure! Here: ".toList "[1, 2]".toList " thanks.".toList
    (Json.arr [Json.num "1".toList, Json.num "2".toList])
    rfl rfl (by decide) (by decide) rfl rfl rfl

/-- JSON whitespace is JavaScript whitespace. -/
theorem isJsWs_of_isJsonWs (c : Char) (h : isJsonWs c = true) :
    isJsWs c = true := by
  simp [isJsWs, h]

/-- A whitespace character differs from any non-whitespace character. -/
theorem ws_ne (c X : Char) (h : isJsWs c = true) (hX : isJsWs X = false) :
    ¬ c = X := by
  intro he
  rw [he, hX] at h
  cases h

/-- A JavaScript whitespace character is not an ASCII digit. -/
theorem ws_not_digit (c : Char) (h : isJsWs c = true) : isDigitC c = false := by
  by_contra hd
  rw [Bool.not_eq_false] at hd
  simp only [isDigitC, Bool.and_eq_true, decide_eq_true_eq] at hd
  simp only [isJsWs, isJsonWs, Bool.or_eq_true, Bool.and_eq_true,
    decide_eq_true_eq] at h
  omega

/-- `takeWhile` keeps only satisfying elements. -/
theorem all_takeWhile (p : Char → Bool) :
    ∀ l : Str, (l.takeWhile p).all p = true
  | [] => rfl
  | c :: t => by
    rw [List.takeWhile_cons]
    cases hc : p c with
    | false => rfl
    | true => simp [hc, all_takeWhile p t]

/-- `dropWhile` over a fully-satisfying prefix. -/
theorem dropWhile_all_append (p : Char → Bool) :
    ∀ (w X : Str), w.all p = true →
      (w ++ X).dropWhile p = X.dropWhile p
  | [], X, _ => rfl
  | c :: w, X, h => by
    simp only [List.all_cons, Bool.and_eq_true] at h
    rw [List.cons_append, List.dropWhile_cons, if_pos h.1]
    exact dropWhile_all_append p w X h.2

/-- `dropWhile` stops at a non-satisfying head. -/
theorem dropWhile_cons_neg (p : Char → Bool) (c : Char) (t : Str)
    (h : p c = false) : (c :: t).dropWhile p = c :: t := by
  rw [List.dropWhile_cons, if_neg (by rw [h]; exact Bool.false_ne_true)]

/-- Whitespace is not a hexadecimal digit. -/
theorem hexVal_ws (c : Char) (h : isJsWs c = true) : hexVal c = none := by
  simp only [isJsWs, isJsonWs, Bool.or_eq_true, Bool.and_eq_true,
    decide_eq_true_eq] at h
  unfold hexVal
  split_ifs with h1 h2 h3
  · simp only [Bool.and_eq_true, decide_eq_true_eq] at h1
    omega
  · simp only [Bool.and_eq_true, decide_eq_true_eq] at h2
    omega
  · simp only [Bool.and_eq_true, decide_eq_true_eq] at h3
    omega
  · rfl

/-- Whitespace is not a string-escape code. -/
theorem escChar_ws (c : Char) (h : isJsWs c = true) : escChar c = none := by
  unfold escChar
  rw [if_neg (ws_ne c '"' h (by decide)), if_neg (ws_ne c '\\' h (by decide)),
    if_neg (ws_ne c '/' h (by decide)), if_neg (ws_ne c 'b' h (by decide)),
    if_neg (ws_ne c 'f' h (by decide)), if_neg (ws_ne c 'n' h (by decide)),
    if_neg (ws_ne c 'r' h (by decide)), if_neg (ws_ne c 't' h (by decide))]

/-- A whitespace-only string body never reaches a closing quote. -/
theorem parseStr_ws : ∀ w : Str, w.all isJsWs = true → parseStr w = none
  | [], _ => rfl
  | c :: t, h => by
    simp only [List.all_cons, Bool.and_eq_true] at h
    unfold parseStr
    rw [if_neg (ws_ne c '"' h.1 (by decide)),
      if_neg (ws_ne c '\\' h.1 (by decide))]
    by_cases hlt : c.toNat < 32
    · rw [if_pos hlt]
    · rw [if_neg hlt, parseStr_ws t h.2]

/-- A successful string parse consumed everything up to and including a
closing quote (strong induction on the input length). -/
theorem parseStr_consume_aux :
    ∀ (n : Nat) (a : Str), a.length ≤ n → ∀ (s r : Str),
      parseStr a = some (s, r) → ∃ p, a = p ++ '"' :: r := by
  intro n
  induction n with
  | zero =>
    intro a ha s r h
    cases a with
    | nil => cases h
    | cons c t => simp at ha
  | succ n ih =>
    intro a ha s r h
    cases a with
    | nil => cases h
    | cons c t =>
      simp only [List.length_cons] at ha
      unfold parseStr at h
      by_cases hq : c = '"'
      · rw [if_pos hq] at h
        simp only [Option.some.injEq, Prod.mk.injEq] at h
        obtain ⟨hs, hr⟩ := h
        subst hr
        exact ⟨[], by subst hq; rfl⟩
      · rw [if_neg hq] at h
        by_cases hb : c = '\\'
        · rw [if_pos hb] at h
          split at h
          · exact Option.noConfusion h
          · rename_i e t2
            by_cases hu : e = 'u'
            · rw [if_pos hu] at h
              split at h
              · rename_i h1 h2 h3 h4 t3
                split at h
                · split at h
                  · rename_i s3 r3 heq3
                    simp only [Option.some.injEq, Prod.mk.injEq] at h
                    obtain ⟨hs, hr⟩ := h
                    obtain ⟨p, hp⟩ := ih t3
                      (by simp only [List.length_cons] at ha; omega) s3 r3 heq3
                    rw [hr] at hp
                    subst hb hu
                    exact ⟨'\\' :: 'u' :: h1 :: h2 :: h3 :: h4 :: p, by simp [hp]⟩
                  · exact Option.noConfusion h
                · exact Option.noConfusion h
              · exact Option.noConfusion h
            · rw [if_neg hu] at h
              split at h
              · rename_i ec heqe
                split at h
                · rename_i s2 r2 heq2
                  simp only [Option.some.injEq, Prod.mk.injEq] at h
                  obtain ⟨hs, hr⟩ := h
                  obtain ⟨p, hp⟩ := ih t2
                    (by simp only [List.length_cons] at ha; omega) s2 r2 heq2
                  rw [hr] at hp
                  subst hb
                  exact ⟨'\\' :: e :: p, by simp [hp]⟩
                · exact Option.noConfusion h
              · exact Option.noConfusion h
        · rw [if_neg hb] at h
          by_cases hlt : c.toNat < 32
          · rw [if_pos hlt] at h
            exact Option.noConfusion h
          · rw [if_neg hlt] at h
            split at h
            · rename_i s2 r2 heq2
              simp only [Option.some.injEq, Prod.mk.injEq] at h
              obtain ⟨hs, hr⟩ := h
              obtain ⟨p, hp⟩ := ih t (by omega) s2 r2 heq2
              rw [hr] at hp
              exact ⟨c :: p, by simp [hp]⟩
            · exact Option.noConfusion h

/-- Wrapper for `parseStr_consume_aux`. -/
theorem parseStr_consume (a s r : Str) (h : parseStr a = some (s, r)) :
    ∃ p, a = p ++ '"' :: r :=
  parseStr_consume_aux a.length a (Nat.le_refl _) s r h

/-- A successful string parse is unaffected by appending to the input
beyond the closing quote. -/
theorem parseStr_app_aux :
    ∀ (n : Nat) (a : Str), a.length ≤ n → ∀ (w s r : Str),
      parseStr a = some (s, r) → parseStr (a ++ w) = some (s, r ++ w) := by
  intro n
  induction n with
  | zero =>
    intro a ha w s r h
    cases a with
    | nil => cases h
    | cons c t => simp at ha
  | succ n ih =>
    intro a ha w s r h
    cases a with
    | nil => cases h
    | cons c t =>
      simp only [List.length_cons] at ha
      unfold parseStr at h
      by_cases hq : c = '"'
      · rw [if_pos hq] at h
        simp only [Option.some.injEq, Prod.mk.injEq] at h
        obtain ⟨hs, hr⟩ := h
        subst hs hr hq
        simp only [List.cons_append]
        unfold parseStr
        rw [if_pos rfl]
      · rw [if_neg hq] at h
        by_cases hb : c = '\\'
        · rw [if_pos hb] at h
          split at h
          · exact Option.noConfusion h
          · rename_i e t2
            by_cases hu : e = 'u'
            · rw [if_pos hu] at h
              split at h
              · rename_i h1 h2 h3 h4 t3
                split at h
                · rename_i va vb vc vd hm1 hm2 hm3 hm4
                  split at h
                  · rename_i s3 r3 heq3
                    simp only [Option.some.injEq, Prod.mk.injEq] at h
                    obtain ⟨hs, hr⟩ := h
                    subst hs hr hb hu
                    have hrec := ih t3
                      (by simp only [List.length_cons] at ha; omega) w s3 r3 heq3
                    simp [parseStr, List.cons_append, hm1, hm2, hm3, hm4, hrec]
                  · exact Option.noConfusion h
                · exact Option.noConfusion h
              · exact Option.noConfusion h
            · rw [if_neg hu] at h
              split at h
              · rename_i ec heqe
                split at h
                · rename_i s2 r2 heq2
                  simp only [Option.some.injEq, Prod.mk.injEq] at h
                  obtain ⟨hs, hr⟩ := h
                  subst hs hr hb
                  have hrec := ih t2
                    (by simp only [List.length_cons] at ha; omega) w s2 r2 heq2
                  simp only [List.cons_append]
                  rw [parseStr.eq_def]
                  simp [hu, heqe, hrec]
                · exact Option.noConfusion h
              · exact Option.noConfusion h
        · rw [if_neg hb] at h
          by_cases hlt : c.toNat < 32
          · rw [if_pos hlt] at h
            exact Option.noConfusion h
          · rw [if_neg hlt] at h
            split at h
            · rename_i s2 r2 heq2
              simp only [Option.some.injEq, Prod.mk.injEq] at h
              obtain ⟨hs, hr⟩ := h
              subst hs hr
              have hrec := ih t (by omega) w s2 r2 heq2
              simp only [List.cons_append]
              rw [parseStr.eq_def]
              simp [hq, hb, hlt, hrec]
            · exact Option.noConfusion h

/-- Wrapper for `parseStr_app_aux`. -/
theorem parseStr_app (a w s r : Str) (h : parseStr a = some (s, r)) :
    parseStr (a ++ w) = some (s, r ++ w) :=
  parseStr_app_aux a.length a (Nat.le_refl _) w s r h

set_option maxHeartbeats 1000000 in
/-- A failed string parse still fails after appending whitespace: the
appended characters are not a quote, not an escape, not hexadecimal. -/
theorem parseStr_failws_aux :
    ∀ (n : Nat) (a : Str), a.length ≤ n → ∀ (w : Str),
      w.all isJsWs = true → parseStr a = none → parseStr (a ++ w) = none := by
  intro n
  induction n with
  | zero =>
    intro a ha w hw h
    cases a with
    | nil => exact parseStr_ws w hw
    | cons c t => simp at ha
  | succ n ih =>
    intro a ha w hw h
    cases a with
    | nil => exact parseStr_ws w hw
    | cons c t =>
      simp only [List.length_cons] at ha
      unfold parseStr at h
      by_cases hq : c = '"'
      · rw [if_pos hq] at h
        exact Option.noConfusion h
      · rw [if_neg hq] at h
        by_cases hb : c = '\\'
        · rw [if_pos hb] at h
          subst hb
          split at h
          · -- a = ['\\']
            simp only [List.cons_append, List.nil_append]
            rw [parseStr.eq_def]
            cases w with
            | nil => simp
            | cons e w2 =>
              simp only [List.all_cons, Bool.and_eq_true] at hw
              simp [ws_ne e 'u' hw.1 (by decide), escChar_ws e hw.1,
                parseStr_ws w2 hw.2]
          · rename_i e t2
            by_cases hu : e = 'u'
            · rw [if_pos hu] at h
              subst hu
              split at h
              · -- t2 = h1 :: h2 :: h3 :: h4 :: t3
                rename_i h1 h2 h3 h4 t3
                split at h
                · rename_i va vb vc vd hm1 hm2 hm3 hm4
                  split at h
                  · exact Option.noConfusion h
                  · rename_i heq3
                    have hrec := ih t3
                      (by simp only [List.length_cons] at ha; omega) w hw heq3
                    simp only [List.cons_append]
                    rw [parseStr.eq_def]
                    simp [hm1, hm2, hm3, hm4, hrec]
                · -- some hexVal is none; same four characters after append
                  rename_i hno
                  simp only [List.cons_append]
                  rw [parseStr.eq_def]
                  cases hx1 : hexVal h1 with
                  | none => simp [hx1]
                  | some v1 =>
                    cases hx2 : hexVal h2 with
                    | none => simp [hx1, hx2]
                    | some v2 =>
                      cases hx3 : hexVal h3 with
                      | none => simp [hx1, hx2, hx3]
                      | some v3 =>
                        cases hx4 : hexVal h4 with
                        | none => simp [hx1, hx2, hx3, hx4]
                        | some v4 =>
                          exact (hno v1 v2 v3 v4 hx1 hx2 hx3 hx4).elim
              · -- t2 has fewer than four characters
                rename_i hshort
                simp only [List.cons_append]
                rw [parseStr.eq_def]
                rcases t2 with _ | ⟨x1, _ | ⟨x2, _ | ⟨x3, _ | ⟨x4, t5⟩⟩⟩⟩
                · cases w with
                  | nil => simp
                  | cons w1 w2 =>
                    cases w2 with
                    | nil => simp
                    | cons w3 w4 =>
                      cases w4 with
                      | nil => simp
                      | cons w5 w6 =>
                        cases w6 with
                        | nil => simp
                        | cons w7 w8 =>
                          simp only [List.all_cons, Bool.and_eq_true] at hw
                          simp [hexVal_ws w1 hw.1]
                · cases w with
                  | nil => simp
                  | cons w1 w2 =>
                    cases w2 with
                    | nil => simp
                    | cons w3 w4 =>
                      cases w4 with
                      | nil => simp
                      | cons w5 w6 =>
                        simp only [List.all_cons, Bool.and_eq_true] at hw
                        cases hx1 : hexVal x1 <;>
                          simp [hx1, hexVal_ws w1 hw.1]
                · cases w with
                  | nil => simp
                  | cons w1 w2 =>
                    cases w2 with
                    | nil => simp
                    | cons w3 w4 =>
                      simp only [List.all_cons, Bool.and_eq_true] at hw
                      cases hx1 : hexVal x1 <;> cases hx2 : hexVal x2 <;>
                        simp [hx1, hx2, hexVal_ws w1 hw.1]
                · cases w with
                  | nil => simp
                  | cons w1 w2 =>
                    simp only [List.all_cons, Bool.and_eq_true] at hw
                    cases hx1 : hexVal x1 <;> cases hx2 : hexVal x2 <;>
                      cases hx3 : hexVal x3 <;>
                      simp [hx1, hx2, hx3, hexVal_ws w1 hw.1]
                · exact (hshort x1 x2 x3 x4 t5 rfl).elim
            · rw [if_neg hu] at h
              split at h
              · rename_i ec heqe
                split at h
                · exact Option.noConfusion h
                · rename_i heq2
                  have hrec := ih t2
                    (by simp only [List.length_cons] at ha; omega) w hw heq2
                  simp only [List.cons_append]
                  rw [parseStr.eq_def]
                  simp [hu, heqe, hrec]
              · rename_i heqe
                simp only [List.cons_append]
                rw [parseStr.eq_def]
                simp [hu, heqe]
        · rw [if_neg hb] at h
          by_cases hlt : c.toNat < 32
          · simp only [List.cons_append]
            rw [parseStr.eq_def]
            simp [hq, hb, hlt]
          · rw [if_neg hlt] at h
            split at h
            · exact Option.noConfusion h
            · rename_i heq2
              have hrec := ih t (by omega) w hw heq2
              simp only [List.cons_append]
              rw [parseStr.eq_def]
              simp [hq, hb, hlt, hrec]

/-- Wrapper for `parseStr_failws_aux`. -/
theorem parseStr_failws (a w : Str) (hw : w.all isJsWs = true)
    (h : parseStr a = none) : parseStr (a ++ w) = none :=
  parseStr_failws_aux a.length a (Nat.le_refl _) w hw h

/-- C1 counterexample: the text `["a```b"]` is valid JSON (its direct
strict parse is the one-element array containing the string with three
backticks), and it is wrapped in zero code fences; yet `extractJson`
returns the array containing `"ab"` — the fence-stripping pass deleted the
backticks inside the JSON string literal — which differs from the direct
parse of the (un)wrapped text. -/
theorem fence_roundtrip_counterexample :
    jparse "[\"a```b\"]".toList = some (Json.arr [Json.str "a```b".toList]) ∧
    iterWrap 0 "[\"a```b\"]".toList = "[\"a```b\"]".toList ∧
    extractJson (iterWrap 0 "[\"a```b\"]".toList) JKind.array =
      .ok (Json.arr [Json.str "ab".toList]) ∧
    Json.arr [Json.str "ab".toList] ≠ Json.arr [Json.str "a```b".toList] := by
  refine ⟨rfl, rfl, rfl, ?_⟩
  intro h
  injection h with h1
  injection h1 with h2 h3
  injection h2 with h4
  exact absurd h4 (by decide)


/-- A string parse extends by a whitespace suffix, packaged over `opExt`. -/
theorem parseStr_ext (a w : Str) (hw : w.all isJsWs = true) :
    parseStr (a ++ w) = opExt w (parseStr a) := by
  cases h : parseStr a with
  | none => simp [opExt, parseStr_failws a w hw h]
  | some p =>
    obtain ⟨s, r⟩ := p
    simp [opExt, parseStr_app a w s r h]

/-- A digit run is unchanged by appending whitespace. -/
theorem takeWhile_digit_ext : ∀ (t w : Str), w.all isJsWs = true →
    (t ++ w).takeWhile isDigitC = t.takeWhile isDigitC
  | [], w, hw => by
    cases w with
    | nil => rfl
    | cons c t2 =>
      simp only [List.all_cons, Bool.and_eq_true] at hw
      simp [List.takeWhile_cons, ws_not_digit c hw.1]
  | c :: t, w, hw => by
    simp only [List.cons_append, List.takeWhile_cons]
    cases hd : isDigitC c with
    | false => simp
    | true => simp [takeWhile_digit_ext t w hw]

/-- Dropping a digit run commutes with appending whitespace. -/
theorem dropWhile_digit_ext : ∀ (t w : Str), w.all isJsWs = true →
    (t ++ w).dropWhile isDigitC = t.dropWhile isDigitC ++ w
  | [], w, hw => by
    cases w with
    | nil => rfl
    | cons c t2 =>
      simp only [List.all_cons, Bool.and_eq_true] at hw
      simp [List.dropWhile_cons, ws_not_digit c hw.1]
  | c :: t, w, hw => by
    simp only [List.cons_append, List.dropWhile_cons]
    cases hd : isDigitC c with
    | false => simp
    | true => simp [dropWhile_digit_ext t w hw]

/-- `dropWhile` never lengthens a list. -/
theorem dropWhile_length_le (p : Char → Bool) (l : Str) :
    (l.dropWhile p).length ≤ l.length := by
  conv_rhs => rw [← List.takeWhile_append_dropWhile p l]
  rw [List.length_append]
  omega

/-- The integer span extends by a whitespace suffix. -/
theorem intSpan_ext (l w : Str) (hw : w.all isJsWs = true) :
    intSpan (l ++ w) = opExt w (intSpan l) := by
  cases l with
  | nil =>
    cases w with
    | nil => rfl
    | cons c t =>
      simp only [List.all_cons, Bool.and_eq_true] at hw
      simp [intSpan, opExt, ws_ne c '0' hw.1 (by decide), ws_not_digit c hw.1]
  | cons c t =>
    simp only [List.cons_append]
    simp only [intSpan]
    by_cases h0 : c = '0'
    · simp [h0, opExt]
    · rw [if_neg h0, if_neg h0]
      cases hd : isDigitC c with
      | false => simp [opExt]
      | true =>
        simp [opExt, takeWhile_digit_ext t w hw, dropWhile_digit_ext t w hw]

/-- A successful integer span consumes at least one character. -/
theorem intSpan_len (l ip r : Str) (h : intSpan l = some (ip, r)) :
    r.length < l.length := by
  cases l with
  | nil => exact Option.noConfusion h
  | cons c t =>
    simp only [intSpan] at h
    split_ifs at h with h0 hd
    · simp only [Option.some.injEq, Prod.mk.injEq] at h
      rw [← h.2]
      simp [Nat.lt_succ_self]
    · simp only [Option.some.injEq, Prod.mk.injEq] at h
      rw [← h.2]
      have := dropWhile_length_le isDigitC t
      simp only [List.length_cons]
      omega

/-- The fraction span extends by a whitespace suffix. -/
theorem fracSpan_ext (l w : Str) (hw : w.all isJsWs = true) :
    fracSpan (l ++ w) = ((fracSpan l).1, (fracSpan l).2 ++ w) := by
  cases l with
  | nil =>
    cases w with
    | nil => rfl
    | cons c t =>
      simp only [List.all_cons, Bool.and_eq_true] at hw
      simp [fracSpan, ws_ne c '.' hw.1 (by decide)]
  | cons c t =>
    simp only [List.cons_append]
    simp only [fracSpan]
    by_cases hdot : c = '.'
    · rw [if_pos hdot, if_pos hdot, takeWhile_digit_ext t w hw]
      by_cases hemp : t.takeWhile isDigitC = []
      · simp [hemp]
      · simp [hemp, dropWhile_digit_ext t w hw]
    · simp [hdot]

/-- The fraction span never consumes beyond the input. -/
theorem fracSpan_len (l : Str) : (fracSpan l).2.length ≤ l.length := by
  cases l with
  | nil => exact Nat.le_refl _
  | cons c t =>
    simp only [fracSpan]
    by_cases hdot : c = '.'
    · rw [if_pos hdot]
      by_cases hemp : t.takeWhile isDigitC = []
      · rw [if_pos hemp]
      · rw [if_neg hemp]
        have := dropWhile_length_le isDigitC t
        simp only [List.length_cons]
        omega
    · rw [if_neg hdot]

/-- The exponent span extends by a whitespace suffix. -/
theorem expSpan_ext (l w : Str) (hw : w.all isJsWs = true) :
    expSpan (l ++ w) = ((expSpan l).1, (expSpan l).2 ++ w) := by
  cases l with
  | nil =>
    cases w with
    | nil => rfl
    | cons c t =>
      simp only [List.all_cons, Bool.and_eq_true] at hw
      have h1 : ¬ c = 'e' := ws_ne c 'e' hw.1 (by decide)
      have h2 : ¬ c = 'E' := ws_ne c 'E' hw.1 (by decide)
      simp [expSpan, h1, h2]
  | cons c t =>
    simp only [List.cons_append]
    simp only [expSpan]
    by_cases he : (c = 'e' || c = 'E') = true
    · rw [if_pos he, if_pos he]
      cases t with
      | nil =>
        simp only [List.nil_append]
        cases w with
        | nil => rfl
        | cons s t2 =>
          simp only [List.all_cons, Bool.and_eq_true] at hw
          have h2 : ¬ s = '+' := ws_ne s '+' hw.1 (by decide)
          have h3 : ¬ s = '-' := ws_ne s '-' hw.1 (by decide)
          have h4 : (s :: t2).takeWhile isDigitC = [] := by
            simp [List.takeWhile_cons, ws_not_digit s hw.1]
          simp [h2, h3, h4]
      | cons s t2 =>
        simp only [List.cons_append]
        by_cases hs : (s = '+' || s = '-') = true
        · rw [if_pos hs, if_pos hs, takeWhile_digit_ext t2 w hw]
          by_cases hemp : t2.takeWhile isDigitC = []
          · simp [hemp]
          · simp [hemp, dropWhile_digit_ext t2 w hw]
        · rw [if_neg hs, if_neg hs]
          have hx := takeWhile_digit_ext (s :: t2) w hw
          simp only [List.cons_append] at hx
          rw [hx]
          by_cases hemp : (s :: t2).takeWhile isDigitC = []
          · simp [hemp]
          · have hy := dropWhile_digit_ext (s :: t2) w hw
            simp only [List.cons_append] at hy
            simp [hemp, hy]
    · rw [if_neg he, if_neg he]
      simp

/-- The exponent span never consumes beyond the input. -/
theorem expSpan_len (l : Str) : (expSpan l).2.length ≤ l.length := by
  cases l with
  | nil => exact Nat.le_refl _
  | cons c t =>
    cases t with
    | nil =>
      simp only [expSpan]
      by_cases he : (c = 'e' || c = 'E') = true
      · rw [if_pos he]
      · rw [if_neg he]
    | cons s t2 =>
      simp only [expSpan]
      by_cases he : (c = 'e' || c = 'E') = true
      · rw [if_pos he]
        by_cases hs : (s = '+' || s = '-') = true
        · rw [if_pos hs]
          by_cases hemp : t2.takeWhile isDigitC = []
          · rw [if_pos hemp]
          · rw [if_neg hemp]
            have := dropWhile_length_le isDigitC t2
            simp only [List.length_cons]
            omega
        · rw [if_neg hs]
          by_cases hemp : (s :: t2).takeWhile isDigitC = []
          · rw [if_pos hemp]
          · rw [if_neg hemp]
            have := dropWhile_length_le isDigitC (s :: t2)
            simp only [List.length_cons] at this ⊢
            omega
      · rw [if_neg he]

/-- The number parser extends by a whitespace suffix. -/
theorem parseNum_ext (l w : Str) (hw : w.all isJsWs = true) :
    parseNum (l ++ w) = opExt w (parseNum l) := by
  cases l with
  | nil =>
    cases w with
    | nil => rfl
    | cons c t =>
      simp only [List.all_cons, Bool.and_eq_true] at hw
      simp only [List.nil_append]
      have hi : intSpan (c :: t) = none := by
        simp only [intSpan]
        rw [if_neg (ws_ne c '0' hw.1 (by decide))]
        simp [ws_not_digit c hw.1]
      simp only [parseNum]
      rw [if_neg (ws_ne c '-' hw.1 (by decide))]
      simp [hi, opExt]
  | cons c t =>
    simp only [List.cons_append]
    simp only [parseNum]
    by_cases hm : c = '-'
    · cases hi : intSpan t with
      | none => simp [if_pos hm, intSpan_ext t w hw, hi, opExt]
      | some p1 =>
        obtain ⟨ip, r1⟩ := p1
        simp [if_pos hm, intSpan_ext t w hw, hi, opExt, fracSpan_ext r1 w hw,
          expSpan_ext (fracSpan r1).2 w hw]
    · cases hi : intSpan (c :: t) with
      | none =>
        have hx := intSpan_ext (c :: t) w hw
        simp only [List.cons_append] at hx
        rw [hi] at hx
        simp [if_neg hm, hx, hi, opExt]
      | some p1 =>
        obtain ⟨ip, r1⟩ := p1
        have hx := intSpan_ext (c :: t) w hw
        simp only [List.cons_append] at hx
        rw [hi] at hx
        simp [if_neg hm, hx, hi, opExt, fracSpan_ext r1 w hw,
          expSpan_ext (fracSpan r1).2 w hw]

/-- A successful number parse consumes at least one character. -/
theorem parseNum_len (l : Str) (j : Json) (r : Str)
    (h : parseNum l = some (j, r)) : r.length < l.length := by
  cases l with
  | nil => exact Option.noConfusion h
  | cons c t =>
    simp only [parseNum] at h
    by_cases hm : c = '-'
    · rw [if_pos hm] at h
      cases hi : intSpan t with
      | none => rw [hi] at h; exact Option.noConfusion h
      | some p1 =>
        obtain ⟨ip, r1⟩ := p1
        rw [hi] at h
        simp only [Option.some.injEq, Prod.mk.injEq] at h
        have h1 := intSpan_len t ip r1 hi
        have h2 := fracSpan_len r1
        have h3 := expSpan_len (fracSpan r1).2
        rw [← h.2] at *
        simp only [List.length_cons]
        omega
    · rw [if_neg hm] at h
      cases hi : intSpan (c :: t) with
      | none => rw [hi] at h; exact Option.noConfusion h
      | some p1 =>
        obtain ⟨ip, r1⟩ := p1
        rw [hi] at h
        simp only [Option.some.injEq, Prod.mk.injEq] at h
        have h1 := intSpan_len (c :: t) ip r1 hi
        have h2 := fracSpan_len r1
        have h3 := expSpan_len (fracSpan r1).2
        rw [← h.2] at *
        omega

/-- A matched literal prefix is no longer than the input. -/
theorem litPrefix_length_le : ∀ (pat l : Str), litPrefix pat l = true →
    pat.length ≤ l.length
  | [], l, _ => Nat.zero_le _
  | p :: ps, [], h => by cases h
  | p :: ps, c :: cs, h => by
    simp only [litPrefix, Bool.and_eq_true] at h
    simp only [List.length_cons]
    exact Nat.succ_le_succ (litPrefix_length_le ps cs h.2)

/-- A non-whitespace literal test is unchanged by appending whitespace. -/
theorem litPrefix_ext : ∀ (pat a w : Str),
    pat.all (fun c => !isJsWs c) = true → w.all isJsWs = true →
    litPrefix pat (a ++ w) = litPrefix pat a
  | [], a, w, _, _ => rfl
  | p :: ps, [], w, hp, hw => by
    simp only [List.nil_append]
    cases w with
    | nil => rfl
    | cons c t =>
      simp only [List.all_cons, Bool.and_eq_true] at hp hw
      have hpf : isJsWs p = false := by
        have h1 := hp.1
        cases hh : isJsWs p
        · rfl
        · rw [hh] at h1; exact absurd h1 (by decide)
      have hne : ¬ p = c := by
        intro he
        rw [he, hw.1] at hpf
        exact Bool.noConfusion hpf
      simp [litPrefix, hne]
  | p :: ps, c :: cs, w, hp, hw => by
    simp only [List.all_cons, Bool.and_eq_true] at hp
    simp only [List.cons_append, litPrefix]
    have hx := litPrefix_ext ps cs w hp.2 hw
    simp only [List.append_eq]
    rw [hx]

/-- The keyword parser extends by a whitespace suffix. -/
theorem parseLit_ext (pat : Str) (v : Json) (l w : Str)
    (hpat : pat.all (fun c => !isJsWs c) = true) (hw : w.all isJsWs = true) :
    parseLit pat v (l ++ w) = opExt w (parseLit pat v l) := by
  unfold parseLit
  rw [litPrefix_ext pat l w hpat hw]
  cases hl : litPrefix pat l with
  | false => simp [opExt]
  | true =>
    have hle := litPrefix_length_le pat l hl
    simp [opExt, List.drop_append_of_le_length hle]

/-- A successful keyword parse consumes the keyword. -/
theorem parseLit_len (pat : Str) (v : Json) (l : Str) (j : Json) (r : Str)
    (hne : pat ≠ []) (h : parseLit pat v l = some (j, r)) :
    r.length < l.length := by
  unfold parseLit at h
  split_ifs at h with hp
  · simp only [Option.some.injEq, Prod.mk.injEq] at h
    rw [← h.2]
    have hle := litPrefix_length_le pat l hp
    rw [List.length_drop]
    cases pat with
    | nil => exact absurd rfl hne
    | cons p ps =>
      simp only [List.length_cons] at hle ⊢
      omega

/-- `skipWs` never lengthens the input. -/
theorem skipWs_length_le (l : Str) : (skipWs l).length ≤ l.length :=
  dropWhile_length_le isJsonWs l

/-- `skipWs` distributes over an append whose left part is not all
whitespace. -/
theorem skipWs_cons_ext (r w : Str) (c : Char) (r2 : Str)
    (h : skipWs r = c :: r2) : skipWs (r ++ w) = c :: (r2 ++ w) := by
  unfold skipWs at h ⊢
  rw [List.dropWhile_append, h]
  simp

/-- `skipWs` over an append whose left part is all whitespace. -/
theorem skipWs_nil_ext (r w : Str) (h : skipWs r = []) :
    skipWs (r ++ w) = skipWs w := by
  unfold skipWs at h ⊢
  rw [List.dropWhile_append, h]
  simp

/-- `skipWs` of an all-JS-whitespace list is still all JS whitespace. -/
theorem skipWs_all_ws (w : Str) (hw : w.all isJsWs = true) :
    (skipWs w).all isJsWs = true := by
  induction w with
  | nil => rfl
  | cons c t ih =>
    simp only [List.all_cons, Bool.and_eq_true] at hw
    unfold skipWs at ih ⊢
    rw [List.dropWhile_cons]
    split_ifs with h
    · exact ih hw.2
    · simp [List.all_cons, hw.1, hw.2]

/-- `parseVal` fails immediately when the first character is whitespace. -/
theorem parseVal_head_ws (f : Nat) (c : Char) (t : Str)
    (hc : isJsWs c = true) : parseVal (f + 1) (c :: t) = .fail := by
  have h1 : ¬ c = '{' := ws_ne c '{' hc (by decide)
  have h2 : ¬ c = '[' := ws_ne c '[' hc (by decide)
  have h3 : ¬ c = '"' := ws_ne c '"' hc (by decide)
  have h4 : ¬ c = 't' := ws_ne c 't' hc (by decide)
  have h5 : ¬ c = 'f' := ws_ne c 'f' hc (by decide)
  have h6 : ¬ c = 'n' := ws_ne c 'n' hc (by decide)
  have h7 : ¬ c = '-' := ws_ne c '-' hc (by decide)
  have h8 : isDigitC c = false := ws_not_digit c hc
  unfold parseVal
  simp [h1, h2, h3, h4, h5, h6, h7, h8]

/-- `parseMembers` fails immediately when the first character is not a
quote. -/
theorem parseMembers_head_ne (f : Nat) (c : Char) (t : Str)
    (hc : ¬ c = '"') : parseMembers (f + 1) (c :: t) = .fail := by
  unfold parseMembers
  simp [hc]

/-- On all-whitespace input `parseVal` behaves as on the empty input. -/
theorem parseVal_ws_eq (f : Nat) (wl : Str) (hw : wl.all isJsWs = true) :
    parseVal f wl = parseVal f [] := by
  cases f with
  | zero => rfl
  | succ f =>
    cases wl with
    | nil => rfl
    | cons c t =>
      simp only [List.all_cons, Bool.and_eq_true] at hw
      rw [parseVal_head_ws f c t hw.1]
      rfl

/-- On all-whitespace input `parseElems` behaves as on the empty input. -/
theorem parseElems_ws_eq (f : Nat) (wl : Str) (hw : wl.all isJsWs = true) :
    parseElems f wl = parseElems f [] := by
  cases f with
  | zero => rfl
  | succ f =>
    unfold parseElems
    rw [parseVal_ws_eq f wl hw]

/-- On all-whitespace input `parseMembers` behaves as on the empty input. -/
theorem parseMembers_ws_eq (f : Nat) (wl : Str) (hw : wl.all isJsWs = true) :
    parseMembers f wl = parseMembers f [] := by
  cases f with
  | zero => rfl
  | succ f =>
    cases wl with
    | nil => rfl
    | cons c t =>
      simp only [List.all_cons, Bool.and_eq_true] at hw
      rw [parseMembers_head_ne f c t (ws_ne c '"' hw.1 (by decide))]
      rfl

/-- A successful `parseVal` input starts with a non-whitespace character. -/
theorem parseVal_head (f : Nat) (l : Str) (v : Json) (r : Str)
    (h : parseVal f l = .ok (v, r)) :
    ∃ c t, l = c :: t ∧ isJsWs c = false := by
  cases f with
  | zero => exact PR.noConfusion h
  | succ f =>
    cases l with
    | nil => exact PR.noConfusion h
    | cons c t =>
      refine ⟨c, t, rfl, ?_⟩
      cases hc : isJsWs c with
      | false => rfl
      | true =>
        rw [parseVal_head_ws f c t hc] at h
        exact PR.noConfusion h

/-- A successful string parse consumes at least the closing quote. -/
theorem parseStr_len (t s r : Str) (h : parseStr t = some (s, r)) :
    r.length < t.length := by
  obtain ⟨p, hp⟩ := parseStr_consume t s r h
  rw [hp, List.length_append, List.length_cons]
  omega

/-- A successful fuelled parse consumes at least one character
(mutual induction over the fuel). -/
theorem parse_consume : ∀ f : Nat,
    (∀ l v r, parseVal f l = .ok (v, r) → r.length < l.length) ∧
    (∀ l vs r, parseElems f l = .ok (vs, r) → r.length < l.length) ∧
    (∀ l kvs r, parseMembers f l = .ok (kvs, r) → r.length < l.length) := by
  intro f
  induction f with
  | zero =>
    refine ⟨?_, ?_, ?_⟩ <;> (intro l a r h; exact PR.noConfusion h)
  | succ f ih =>
    obtain ⟨ihV, ihE, ihM⟩ := ih
    refine ⟨?_, ?_, ?_⟩
    · intro l v r h
      cases l with
      | nil => exact PR.noConfusion h
      | cons c t =>
        unfold parseVal at h
        have hsklen := skipWs_length_le t
        by_cases h1 : c = '{'
        · simp only [h1, eq_self_iff_true, if_true] at h
          cases hsk : skipWs t with
          | nil => simp only [hsk] at h; exact PR.noConfusion h
          | cons c2 t2 =>
            simp only [hsk] at h
            rw [hsk] at hsklen
            simp only [List.length_cons] at hsklen
            by_cases h2 : c2 = '}'
            · simp only [h2, eq_self_iff_true, if_true, PR.ok.injEq,
                Prod.mk.injEq] at h
              rw [← h.2]
              simp only [List.length_cons]
              omega
            · simp only [h2, if_false] at h
              cases hm : parseMembers f (c2 :: t2) with
              | out => simp only [hm] at h; exact PR.noConfusion h
              | fail => simp only [hm] at h; exact PR.noConfusion h
              | ok p =>
                obtain ⟨kvs, r3⟩ := p
                simp only [hm, PR.ok.injEq, Prod.mk.injEq] at h
                have h3 := ihM (c2 :: t2) kvs r3 hm
                rw [← h.2]
                simp only [List.length_cons] at h3 ⊢
                omega
        · simp only [h1, if_false] at h
          by_cases h2 : c = '['
          · simp only [h2, eq_self_iff_true, if_true] at h
            cases hsk : skipWs t with
            | nil => simp only [hsk] at h; exact PR.noConfusion h
            | cons c2 t2 =>
              simp only [hsk] at h
              rw [hsk] at hsklen
              simp only [List.length_cons] at hsklen
              by_cases h3 : c2 = ']'
              · simp only [h3, eq_self_iff_true, if_true, PR.ok.injEq,
                  Prod.mk.injEq] at h
                rw [← h.2]
                simp only [List.length_cons]
                omega
              · simp only [h3, if_false] at h
                cases he : parseElems f (c2 :: t2) with
                | out => simp only [he] at h; exact PR.noConfusion h
                | fail => simp only [he] at h; exact PR.noConfusion h
                | ok p =>
                  obtain ⟨vs2, r3⟩ := p
                  simp only [he, PR.ok.injEq, Prod.mk.injEq] at h
                  have h4 := ihE (c2 :: t2) vs2 r3 he
                  rw [← h.2]
                  simp only [List.length_cons] at h4 ⊢
                  omega
          · simp only [h2, if_false] at h
            by_cases h3 : c = '"'
            · simp only [h3, eq_self_iff_true, if_true] at h
              cases hps : parseStr t with
              | none => simp only [hps] at h; exact PR.noConfusion h
              | some p =>
                obtain ⟨s2, r2⟩ := p
                simp only [hps, PR.ok.injEq, Prod.mk.injEq] at h
                have h4 := parseStr_len t s2 r2 hps
                rw [← h.2]
                simp only [List.length_cons]
                omega
            · simp only [h3, if_false] at h
              by_cases h4 : c = 't'
              · simp only [h4, eq_self_iff_true, if_true] at h
                cases hpl : parseLit ('t' :: 'r' :: 'u' :: 'e' :: [])
                    (Json.bool true) ('t' :: t) with
                | none => simp only [hpl] at h; exact PR.noConfusion h
                | some x =>
                  obtain ⟨j2, r2⟩ := x
                  simp only [hpl, PR.ok.injEq] at h
                  have h5 := parseLit_len _ _ _ j2 r2
                    (List.cons_ne_nil _ _) hpl
                  injection h with hj hr
                  rw [← hr]
                  simpa using h5
              · simp only [h4, if_false] at h
                by_cases h5 : c = 'f'
                · simp only [h5, eq_self_iff_true, if_true] at h
                  cases hpl : parseLit ('f' :: 'a' :: 'l' :: 's' :: 'e' :: [])
                      (Json.bool false) ('f' :: t) with
                  | none => simp only [hpl] at h; exact PR.noConfusion h
                  | some x =>
                    obtain ⟨j2, r2⟩ := x
                    simp only [hpl, PR.ok.injEq] at h
                    have h6 := parseLit_len _ _ _ j2 r2
                      (List.cons_ne_nil _ _) hpl
                    injection h with hj hr
                    rw [← hr]
                    simpa using h6
                · simp only [h5, if_false] at h
                  by_cases h6 : c = 'n'
                  · simp only [h6, eq_self_iff_true, if_true] at h
                    cases hpl : parseLit ('n' :: 'u' :: 'l' :: 'l' :: [])
                        Json.null ('n' :: t) with
                    | none => simp only [hpl] at h; exact PR.noConfusion h
                    | some x =>
                      obtain ⟨j2, r2⟩ := x
                      simp only [hpl, PR.ok.injEq] at h
                      have h7 := parseLit_len _ _ _ j2 r2
                        (List.cons_ne_nil _ _) hpl
                      injection h with hj hr
                      rw [← hr]
                      simpa using h7
                  · simp only [h6, if_false] at h
                    cases hb : (decide (c = '-') || isDigitC c) with
                    | false => simp only [hb, if_false] at h; exact PR.noConfusion h
                    | true =>
                      simp only [hb, eq_self_iff_true, if_true] at h
                      cases hpn : parseNum (c :: t) with
                      | none => simp only [hpn] at h; exact PR.noConfusion h
                      | some x =>
                        obtain ⟨j2, r2⟩ := x
                        simp only [hpn, PR.ok.injEq] at h
                        have h7 := parseNum_len (c :: t) j2 r2 hpn
                        injection h with hj hr
                        rw [← hr]
                        exact h7
    · intro l vs r h
      unfold parseElems at h
      cases hv : parseVal f l with
      | out => simp only [hv] at h; exact PR.noConfusion h
      | fail => simp only [hv] at h; exact PR.noConfusion h
      | ok p =>
        obtain ⟨v, r1⟩ := p
        simp only [hv] at h
        have hr1 := ihV l v r1 hv
        have hsk1 := skipWs_length_le r1
        cases hsk : skipWs r1 with
        | nil => simp only [hsk] at h; exact PR.noConfusion h
        | cons c r2 =>
          simp only [hsk] at h
          rw [hsk] at hsk1
          simp only [List.length_cons] at hsk1
          by_cases hc : c = ','
          · simp only [hc, eq_self_iff_true, if_true] at h
            cases he : parseElems f (skipWs r2) with
            | out => simp only [he] at h; exact PR.noConfusion h
            | fail => simp only [he] at h; exact PR.noConfusion h
            | ok p2 =>
              obtain ⟨vs2, r3⟩ := p2
              simp only [he, PR.ok.injEq, Prod.mk.injEq] at h
              have h3 := ihE (skipWs r2) vs2 r3 he
              have h4 := skipWs_length_le r2
              rw [← h.2]
              omega
          · simp only [hc, if_false] at h
            by_cases hc2 : c = ']'
            · simp only [hc2, eq_self_iff_true, if_true, PR.ok.injEq,
                Prod.mk.injEq] at h
              rw [← h.2]
              omega
            · simp only [hc2, if_false] at h
              exact PR.noConfusion h
    · intro l kvs r h
      unfold parseMembers at h
      cases l with
      | nil => exact PR.noConfusion h
      | cons c t =>
        by_cases h1 : c = '"'
        · simp only [h1, eq_self_iff_true, if_true] at h
          cases hps : parseStr t with
          | none => simp only [hps] at h; exact PR.noConfusion h
          | some p =>
            obtain ⟨k, r1⟩ := p
            simp only [hps] at h
            have hlen1 := parseStr_len t k r1 hps
            have hsk1 := skipWs_length_le r1
            cases hsk : skipWs r1 with
            | nil => simp only [hsk] at h; exact PR.noConfusion h
            | cons c2 r2 =>
              simp only [hsk] at h
              rw [hsk] at hsk1
              simp only [List.length_cons] at hsk1
              by_cases h2 : c2 = ':'
              · simp only [h2, eq_self_iff_true, if_true] at h
                cases hv : parseVal f (skipWs r2) with
                | out => simp only [hv] at h; exact PR.noConfusion h
                | fail => simp only [hv] at h; exact PR.noConfusion h
                | ok p2 =>
                  obtain ⟨v, r3⟩ := p2
                  simp only [hv] at h
                  have hlen3 := ihV (skipWs r2) v r3 hv
                  have hsk2 := skipWs_length_le r2
                  have hsk3 := skipWs_length_le r3
                  cases hsk4 : skipWs r3 with
                  | nil => simp only [hsk4] at h; exact PR.noConfusion h
                  | cons c3 r4 =>
                    simp only [hsk4] at h
                    rw [hsk4] at hsk3
                    simp only [List.length_cons] at hsk3
                    by_cases h3 : c3 = ','
                    · simp only [h3, eq_self_iff_true, if_true] at h
                      cases hm : parseMembers f (skipWs r4) with
                      | out => simp only [hm] at h; exact PR.noConfusion h
                      | fail => simp only [hm] at h; exact PR.noConfusion h
                      | ok p3 =>
                        obtain ⟨kvs2, r5⟩ := p3
                        simp only [hm, PR.ok.injEq, Prod.mk.injEq] at h
                        have h4 := ihM (skipWs r4) kvs2 r5 hm
                        have h5 := skipWs_length_le r4
                        rw [← h.2]
                        simp only [List.length_cons]
                        omega
                    · simp only [h3, if_false] at h
                      by_cases h4 : c3 = '}'
                      · simp only [h4, eq_self_iff_true, if_true, PR.ok.injEq,
                          Prod.mk.injEq] at h
                        rw [← h.2]
                        simp only [List.length_cons]
                        omega
                      · simp only [h4, if_false] at h
                        exact PR.noConfusion h
              · simp only [h2, if_false] at h
                exact PR.noConfusion h
        · simp only [h1, if_false] at h
          exact PR.noConfusion h

/-- One extra unit of fuel does not change a result other than
fuel exhaustion. -/
theorem parse_mono_step : ∀ f : Nat,
    (∀ l, parseVal f l ≠ .out → parseVal (f+1) l = parseVal f l) ∧
    (∀ l, parseElems f l ≠ .out → parseElems (f+1) l = parseElems f l) ∧
    (∀ l, parseMembers f l ≠ .out → parseMembers (f+1) l = parseMembers f l) := by
  intro f
  induction f with
  | zero =>
    refine ⟨?_, ?_, ?_⟩ <;> (intro l h; exact absurd rfl h)
  | succ f ih =>
    obtain ⟨ihV, ihE, ihM⟩ := ih
    refine ⟨?_, ?_, ?_⟩
    · intro l hne
      cases l with
      | nil => rfl
      | cons c t =>
        unfold parseVal at hne ⊢
        by_cases h1 : c = '{'
        · simp only [h1, eq_self_iff_true, if_true] at hne ⊢
          cases hsk : skipWs t with
          | nil => simp only [hsk]
          | cons c2 t2 =>
            simp only [hsk] at hne ⊢
            by_cases h2 : c2 = '}'
            · simp only [h2, eq_self_iff_true, if_true]
            · simp only [h2, if_false] at hne ⊢
              cases hm : parseMembers f (c2 :: t2) with
              | out => simp only [hm] at hne; exact absurd rfl hne
              | fail =>
                have hne2 : parseMembers f (c2 :: t2) ≠ .out := by
                  rw [hm]; exact fun hx => PR.noConfusion hx
                rw [ihM (c2 :: t2) hne2, hm]
              | ok p =>
                obtain ⟨kvs, r3⟩ := p
                have hne2 : parseMembers f (c2 :: t2) ≠ .out := by
                  rw [hm]; exact fun hx => PR.noConfusion hx
                rw [ihM (c2 :: t2) hne2, hm]
        · simp only [h1, if_false] at hne ⊢
          by_cases h2 : c = '['
          · simp only [h2, eq_self_iff_true, if_true] at hne ⊢
            cases hsk : skipWs t with
            | nil => simp only [hsk]
            | cons c2 t2 =>
              simp only [hsk] at hne ⊢
              by_cases h3 : c2 = ']'
              · simp only [h3, eq_self_iff_true, if_true]
              · simp only [h3, if_false] at hne ⊢
                cases he : parseElems f (c2 :: t2) with
                | out => simp only [he] at hne; exact absurd rfl hne
                | fail =>
                  have hne2 : parseElems f (c2 :: t2) ≠ .out := by
                    rw [he]; exact fun hx => PR.noConfusion hx
                  rw [ihE (c2 :: t2) hne2, he]
                | ok p =>
                  obtain ⟨vs2, r3⟩ := p
                  have hne2 : parseElems f (c2 :: t2) ≠ .out := by
                    rw [he]; exact fun hx => PR.noConfusion hx
                  rw [ihE (c2 :: t2) hne2, he]
          · simp only [h2, if_false]
    · intro l hne
      unfold parseElems at hne ⊢
      cases hv : parseVal f l with
      | out => simp only [hv] at hne; exact absurd rfl hne
      | fail =>
        have hne2 : parseVal f l ≠ .out := by
          rw [hv]; exact fun hx => PR.noConfusion hx
        rw [ihV l hne2, hv]
      | ok p =>
        obtain ⟨v, r1⟩ := p
        have hne2 : parseVal f l ≠ .out := by
          rw [hv]; exact fun hx => PR.noConfusion hx
        rw [ihV l hne2, hv]
        simp only [hv] at hne
        cases hsk : skipWs r1 with
        | nil => simp only [hsk]
        | cons c r2 =>
          simp only [hsk] at hne ⊢
          by_cases hc : c = ','
          · simp only [hc, eq_self_iff_true, if_true] at hne ⊢
            cases he : parseElems f (skipWs r2) with
            | out => simp only [he] at hne; exact absurd rfl hne
            | fail =>
              have hne3 : parseElems f (skipWs r2) ≠ .out := by
                rw [he]; exact fun hx => PR.noConfusion hx
              rw [ihE (skipWs r2) hne3, he]
            | ok p2 =>
              obtain ⟨vs2, r3⟩ := p2
              have hne3 : parseElems f (skipWs r2) ≠ .out := by
                rw [he]; exact fun hx => PR.noConfusion hx
              rw [ihE (skipWs r2) hne3, he]
          · simp only [hc, if_false]
    · intro l hne
      cases l with
      | nil => rfl
      | cons c t =>
        unfold parseMembers at hne ⊢
        by_cases h1 : c = '"'
        · simp only [h1, eq_self_iff_true, if_true] at hne ⊢
          cases hps : parseStr t with
          | none => simp only [hps]
          | some p =>
            obtain ⟨k, r1⟩ := p
            simp only [hps] at hne ⊢
            cases hsk : skipWs r1 with
            | nil => simp only [hsk]
            | cons c2 r2 =>
              simp only [hsk] at hne ⊢
              by_cases h2 : c2 = ':'
              · simp only [h2, eq_self_iff_true, if_true] at hne ⊢
                cases hv : parseVal f (skipWs r2) with
                | out => simp only [hv] at hne; exact absurd rfl hne
                | fail =>
                  have hne2 : parseVal f (skipWs r2) ≠ .out := by
                    rw [hv]; exact fun hx => PR.noConfusion hx
                  rw [ihV (skipWs r2) hne2, hv]
                | ok p2 =>
                  obtain ⟨v, r3⟩ := p2
                  have hne2 : parseVal f (skipWs r2) ≠ .out := by
                    rw [hv]; exact fun hx => PR.noConfusion hx
                  rw [ihV (skipWs r2) hne2, hv]
                  simp only [hv] at hne
                  cases hsk4 : skipWs r3 with
                  | nil => simp only [hsk4]
                  | cons c3 r4 =>
                    simp only [hsk4] at hne ⊢
                    by_cases h3 : c3 = ','
                    · simp only [h3, eq_self_iff_true, if_true] at hne ⊢
                      cases hm : parseMembers f (skipWs r4) with
                      | out => simp only [hm] at hne; exact absurd rfl hne
                      | fail =>
                        have hne3 : parseMembers f (skipWs r4) ≠ .out := by
                          rw [hm]; exact fun hx => PR.noConfusion hx
                        rw [ihM (skipWs r4) hne3, hm]
                      | ok p3 =>
                        obtain ⟨kvs2, r5⟩ := p3
                        have hne3 : parseMembers f (skipWs r4) ≠ .out := by
                          rw [hm]; exact fun hx => PR.noConfusion hx
                        rw [ihM (skipWs r4) hne3, hm]
                    · simp only [h3, if_false]
              · simp only [h2, if_false]
        · simp only [h1, if_false]

/-- Fuel monotonicity of `parseVal`, additive form. -/
theorem parseVal_mono_add : ∀ (d f : Nat) (l : Str), parseVal f l ≠ .out →
    parseVal (f + d) l = parseVal f l
  | 0, f, l, _ => rfl
  | d+1, f, l, h => by
    have h1 := parseVal_mono_add d f l h
    have h2 : parseVal (f + d) l ≠ .out := by rw [h1]; exact h
    rw [show f + (d+1) = (f + d) + 1 from rfl, (parse_mono_step (f + d)).1 _ h2, h1]

/-- Fuel monotonicity of `parseVal`. -/
theorem parseVal_mono (f g : Nat) (l : Str) (hle : f ≤ g)
    (h : parseVal f l ≠ .out) : parseVal g l = parseVal f l := by
  obtain ⟨d, rfl⟩ := Nat.le.dest hle
  exact parseVal_mono_add d f l h

/-- With fuel at least twice the input length (plus slack) the parsers
never exhaust their fuel. -/
theorem parse_out : ∀ f : Nat,
    (∀ l, 2 * l.length + 1 ≤ f → parseVal f l ≠ .out) ∧
    (∀ l, 2 * l.length + 2 ≤ f → parseElems f l ≠ .out) ∧
    (∀ l, 2 * l.length + 2 ≤ f → parseMembers f l ≠ .out) := by
  intro f
  induction f with
  | zero =>
    refine ⟨?_, ?_, ?_⟩ <;> (intro l hle h; omega)
  | succ f ih =>
    obtain ⟨ihV, ihE, ihM⟩ := ih
    refine ⟨?_, ?_, ?_⟩
    · intro l hle h
      cases l with
      | nil => exact PR.noConfusion h
      | cons c t =>
        unfold parseVal at h
        simp only [List.length_cons] at hle
        by_cases h1 : c = '{'
        · simp only [h1, eq_self_iff_true, if_true] at h
          cases hsk : skipWs t with
          | nil => simp only [hsk] at h; exact PR.noConfusion h
          | cons c2 t2 =>
            simp only [hsk] at h
            have hsklen := skipWs_length_le t
            rw [hsk] at hsklen
            simp only [List.length_cons] at hsklen
            by_cases h2 : c2 = '}'
            · simp only [h2, eq_self_iff_true, if_true] at h
              exact PR.noConfusion h
            · simp only [h2, if_false] at h
              have hout := ihM (c2 :: t2)
                (by simp only [List.length_cons]; omega)
              cases hm : parseMembers f (c2 :: t2) with
              | out => exact absurd hm hout
              | fail => simp only [hm] at h; exact PR.noConfusion h
              | ok p =>
                obtain ⟨kvs, r3⟩ := p
                simp only [hm] at h
                exact PR.noConfusion h
        · simp only [h1, if_false] at h
          by_cases h2 : c = '['
          · simp only [h2, eq_self_iff_true, if_true] at h
            cases hsk : skipWs t with
            | nil => simp only [hsk] at h; exact PR.noConfusion h
            | cons c2 t2 =>
              simp only [hsk] at h
              have hsklen := skipWs_length_le t
              rw [hsk] at hsklen
              simp only [List.length_cons] at hsklen
              by_cases h3 : c2 = ']'
              · simp only [h3, eq_self_iff_true, if_true] at h
                exact PR.noConfusion h
              · simp only [h3, if_false] at h
                have hout := ihE (c2 :: t2)
                  (by simp only [List.length_cons]; omega)
                cases he : parseElems f (c2 :: t2) with
                | out => exact absurd he hout
                | fail => simp only [he] at h; exact PR.noConfusion h
                | ok p =>
                  obtain ⟨vs2, r3⟩ := p
                  simp only [he] at h
                  exact PR.noConfusion h
          · simp only [h2, if_false] at h
            by_cases h3 : c = '"'
            · simp only [h3, eq_self_iff_true, if_true] at h
              cases hps : parseStr t with
              | none => simp only [hps] at h; exact PR.noConfusion h
              | some p =>
                obtain ⟨s2, r2⟩ := p
                simp only [hps] at h
                exact PR.noConfusion h
            · simp only [h3, if_false] at h
              by_cases h4 : c = 't'
              · simp only [h4, eq_self_iff_true, if_true] at h
                cases hpl : parseLit ('t' :: 'r' :: 'u' :: 'e' :: [])
                    (Json.bool true) ('t' :: t) with
                | none => simp only [hpl] at h; exact PR.noConfusion h
                | some x => simp only [hpl] at h; exact PR.noConfusion h
              · simp only [h4, if_false] at h
                by_cases h5 : c = 'f'
                · simp only [h5, eq_self_iff_true, if_true] at h
                  cases hpl : parseLit ('f' :: 'a' :: 'l' :: 's' :: 'e' :: [])
                      (Json.bool false) ('f' :: t) with
                  | none => simp only [hpl] at h; exact PR.noConfusion h
                  | some x => simp only [hpl] at h; exact PR.noConfusion h
                · simp only [h5, if_false] at h
                  by_cases h6 : c = 'n'
                  · simp only [h6, eq_self_iff_true, if_true] at h
                    cases hpl : parseLit ('n' :: 'u' :: 'l' :: 'l' :: [])
                        Json.null ('n' :: t) with
                    | none => simp only [hpl] at h; exact PR.noConfusion h
                    | some x => simp only [hpl] at h; exact PR.noConfusion h
                  · simp only [h6, if_false] at h
                    cases hb : (decide (c = '-') || isDigitC c) with
                    | false =>
                      simp only [hb, if_false] at h
                      exact PR.noConfusion h
                    | true =>
                      simp only [hb, eq_self_iff_true, if_true] at h
                      cases hpn : parseNum (c :: t) with
                      | none => simp only [hpn] at h; exact PR.noConfusion h
                      | some x => simp only [hpn] at h; exact PR.noConfusion h
    · intro l hle h
      unfold parseElems at h
      have hv1 := ihV l (by omega)
      cases hv : parseVal f l with
      | out => exact absurd hv hv1
      | fail => simp only [hv] at h; exact PR.noConfusion h
      | ok p =>
        obtain ⟨v, r1⟩ := p
        simp only [hv] at h
        have hr1 := (parse_consume f).1 l v r1 hv
        have hsk1 := skipWs_length_le r1
        cases hsk : skipWs r1 with
        | nil => simp only [hsk] at h; exact PR.noConfusion h
        | cons c r2 =>
          simp only [hsk] at h
          rw [hsk] at hsk1
          simp only [List.length_cons] at hsk1
          by_cases hc : c = ','
          · simp only [hc, eq_self_iff_true, if_true] at h
            have hsk2 := skipWs_length_le r2
            have hout := ihE (skipWs r2) (by omega)
            cases he : parseElems f (skipWs r2) with
            | out => exact absurd he hout
            | fail => simp only [he] at h; exact PR.noConfusion h
            | ok p2 =>
              obtain ⟨vs2, r3⟩ := p2
              simp only [he] at h
              exact PR.noConfusion h
          · simp only [hc, if_false] at h
            by_cases hc2 : c = ']'
            · simp only [hc2, eq_self_iff_true, if_true] at h
              exact PR.noConfusion h
            · simp only [hc2, if_false] at h
              exact PR.noConfusion h
    · intro l hle h
      cases l with
      | nil => exact PR.noConfusion h
      | cons c t =>
        unfold parseMembers at h
        simp only [List.length_cons] at hle
        by_cases h1 : c = '"'
        · simp only [h1, eq_self_iff_true, if_true] at h
          cases hps : parseStr t with
          | none => simp only [hps] at h; exact PR.noConfusion h
          | some p =>
            obtain ⟨k, r1⟩ := p
            simp only [hps] at h
            have hlen1 := parseStr_len t k r1 hps
            have hsk1 := skipWs_length_le r1
            cases hsk : skipWs r1 with
            | nil => simp only [hsk] at h; exact PR.noConfusion h
            | cons c2 r2 =>
              simp only [hsk] at h
              rw [hsk] at hsk1
              simp only [List.length_cons] at hsk1
              by_cases h2 : c2 = ':'
              · simp only [h2, eq_self_iff_true, if_true] at h
                have hsk2 := skipWs_length_le r2
                have hv1 := ihV (skipWs r2) (by omega)
                cases hv : parseVal f (skipWs r2) with
                | out => exact absurd hv hv1
                | fail => simp only [hv] at h; exact PR.noConfusion h
                | ok p2 =>
                  obtain ⟨v, r3⟩ := p2
                  simp only [hv] at h
                  have hlen3 := (parse_consume f).1 (skipWs r2) v r3 hv
                  have hsk3 := skipWs_length_le r3
                  cases hsk4 : skipWs r3 with
                  | nil => simp only [hsk4] at h; exact PR.noConfusion h
                  | cons c3 r4 =>
                    simp only [hsk4] at h
                    rw [hsk4] at hsk3
                    simp only [List.length_cons] at hsk3
                    by_cases h3 : c3 = ','
                    · simp only [h3, eq_self_iff_true, if_true] at h
                      have hsk5 := skipWs_length_le r4
                      have hout := ihM (skipWs r4) (by omega)
                      cases hm : parseMembers f (skipWs r4) with
                      | out => exact absurd hm hout
                      | fail => simp only [hm] at h; exact PR.noConfusion h
                      | ok p3 =>
                        obtain ⟨kvs2, r5⟩ := p3
                        simp only [hm] at h
                        exact PR.noConfusion h
                    · simp only [h3, if_false] at h
                      by_cases h4 : c3 = '}'
                      · simp only [h4, eq_self_iff_true, if_true] at h
                        exact PR.noConfusion h
                      · simp only [h4, if_false] at h
                        exact PR.noConfusion h
              · simp only [h2, if_false] at h
                exact PR.noConfusion h
        · simp only [h1, if_false] at h
          exact PR.noConfusion h

/-- On the empty input the parsers never succeed. -/
theorem parseVal_nil_cases (f : Nat) :
    parseVal f [] = .out ∨ parseVal f [] = .fail := by
  cases f with
  | zero => exact Or.inl rfl
  | succ f => exact Or.inr rfl

theorem parseElems_nil_cases (f : Nat) :
    parseElems f [] = .out ∨ parseElems f [] = .fail := by
  cases f with
  | zero => exact Or.inl rfl
  | succ f =>
    cases f with
    | zero => exact Or.inl rfl
    | succ f2 => exact Or.inr rfl

theorem parseMembers_nil_cases (f : Nat) :
    parseMembers f [] = .out ∨ parseMembers f [] = .fail := by
  cases f with
  | zero => exact Or.inl rfl
  | succ f => exact Or.inr rfl

/-- Appending all-whitespace input either extends the remainder of the
result or exhausts the fuel of an already-failing parse. -/
theorem parse_ext : ∀ (f : Nat) (w : Str), w.all isJsWs = true →
    (∀ l, parseVal f (l ++ w) = prExt w (parseVal f l) ∨
      (parseVal f (l ++ w) = .out ∧ parseVal f l = .fail)) ∧
    (∀ l, parseElems f (l ++ w) = prExt w (parseElems f l) ∨
      (parseElems f (l ++ w) = .out ∧ parseElems f l = .fail)) ∧
    (∀ l, parseMembers f (l ++ w) = prExt w (parseMembers f l) ∨
      (parseMembers f (l ++ w) = .out ∧ parseMembers f l = .fail)) := by
  intro f
  induction f with
  | zero =>
    intro w hw
    refine ⟨?_, ?_, ?_⟩ <;> (intro l; exact Or.inl (by trivial))
  | succ f ih =>
    intro w hw
    obtain ⟨ihV, ihE, ihM⟩ := ih w hw
    have hswall := skipWs_all_ws w hw
    refine ⟨?_, ?_, ?_⟩
    · intro l
      cases l with
      | nil =>
        left
        rw [List.nil_append, parseVal_ws_eq (f+1) w hw]
        rfl
      | cons c t =>
        simp only [List.cons_append]
        unfold parseVal
        by_cases h1 : c = '{'
        · simp only [h1, eq_self_iff_true, if_true]
          cases hsk : skipWs t with
          | nil =>
            rw [skipWs_nil_ext t w hsk]
            cases hsw : skipWs w with
            | nil => exact Or.inl (by trivial)
            | cons c2 t2 =>
              rw [hsw] at hswall
              simp only [List.all_cons, Bool.and_eq_true] at hswall
              simp only [ws_ne c2 '}' hswall.1 (by decide), if_false]
              rw [parseMembers_ws_eq f (c2 :: t2)
                (by simp [List.all_cons, hswall.1, hswall.2])]
              rcases parseMembers_nil_cases f with hc | hc
              · rw [hc]
                exact Or.inr ⟨by trivial, by trivial⟩
              · rw [hc]
                exact Or.inl (by trivial)
          | cons c2 t2 =>
            rw [skipWs_cons_ext t w c2 t2 hsk]
            by_cases h2 : c2 = '}'
            · simp only [h2, eq_self_iff_true, if_true]
              exact Or.inl (by trivial)
            · simp only [h2, if_false]
              have hih := ihM (c2 :: t2)
              simp only [List.cons_append] at hih
              rcases hih with hih | ⟨hih1, hih2⟩
              · rw [hih]
                cases hm2 : parseMembers f (c2 :: t2) with
                | out => exact Or.inl (by trivial)
                | fail => exact Or.inl (by trivial)
                | ok p =>
                  obtain ⟨kvs, r⟩ := p
                  exact Or.inl (by trivial)
              · rw [hih1, hih2]
                exact Or.inr ⟨by trivial, by trivial⟩
        · simp only [h1, if_false]
          by_cases h2 : c = '['
          · simp only [h2, eq_self_iff_true, if_true]
            cases hsk : skipWs t with
            | nil =>
              rw [skipWs_nil_ext t w hsk]
              cases hsw : skipWs w with
              | nil => exact Or.inl (by trivial)
              | cons c2 t2 =>
                rw [hsw] at hswall
                simp only [List.all_cons, Bool.and_eq_true] at hswall
                simp only [ws_ne c2 ']' hswall.1 (by decide), if_false]
                rw [parseElems_ws_eq f (c2 :: t2)
                  (by simp [List.all_cons, hswall.1, hswall.2])]
                rcases parseElems_nil_cases f with hc | hc
                · rw [hc]
                  exact Or.inr ⟨by trivial, by trivial⟩
                · rw [hc]
                  exact Or.inl (by trivial)
            | cons c2 t2 =>
              rw [skipWs_cons_ext t w c2 t2 hsk]
              by_cases h3 : c2 = ']'
              · simp only [h3, eq_self_iff_true, if_true]
                exact Or.inl (by trivial)
              · simp only [h3, if_false]
                have hih := ihE (c2 :: t2)
                simp only [List.cons_append] at hih
                rcases hih with hih | ⟨hih1, hih2⟩
                · rw [hih]
                  cases he2 : parseElems f (c2 :: t2) with
                  | out => exact Or.inl (by trivial)
                  | fail => exact Or.inl (by trivial)
                  | ok p =>
                    obtain ⟨vs, r⟩ := p
                    exact Or.inl (by trivial)
                · rw [hih1, hih2]
                  exact Or.inr ⟨by trivial, by trivial⟩
          · simp only [h2, if_false]
            by_cases h3 : c = '"'
            · simp only [h3, eq_self_iff_true, if_true]
              rw [parseStr_ext t w hw]
              cases hps : parseStr t with
              | none => exact Or.inl (by trivial)
              | some p =>
                obtain ⟨s2, r2⟩ := p
                exact Or.inl (by trivial)
            · simp only [h3, if_false]
              by_cases h4 : c = 't'
              · simp only [h4, eq_self_iff_true, if_true]
                have hx := parseLit_ext ('t' :: 'r' :: 'u' :: 'e' :: [])
                  (Json.bool true) ('t' :: t) w (by decide) hw
                simp only [List.cons_append] at hx
                rw [hx]
                cases hpl : parseLit ('t' :: 'r' :: 'u' :: 'e' :: [])
                    (Json.bool true) ('t' :: t) with
                | none => exact Or.inl (by trivial)
                | some x =>
                  obtain ⟨j2, r2⟩ := x
                  exact Or.inl (by trivial)
              · simp only [h4, if_false]
                by_cases h5 : c = 'f'
                · simp only [h5, eq_self_iff_true, if_true]
                  have hx := parseLit_ext ('f' :: 'a' :: 'l' :: 's' :: 'e' :: [])
                    (Json.bool false) ('f' :: t) w (by decide) hw
                  simp only [List.cons_append] at hx
                  rw [hx]
                  cases hpl : parseLit ('f' :: 'a' :: 'l' :: 's' :: 'e' :: [])
                      (Json.bool false) ('f' :: t) with
                  | none => exact Or.inl (by trivial)
                  | some x =>
                    obtain ⟨j2, r2⟩ := x
                    exact Or.inl (by trivial)
                · simp only [h5, if_false]
                  by_cases h6 : c = 'n'
                  · simp only [h6, eq_self_iff_true, if_true]
                    have hx := parseLit_ext ('n' :: 'u' :: 'l' :: 'l' :: [])
                      Json.null ('n' :: t) w (by decide) hw
                    simp only [List.cons_append] at hx
                    rw [hx]
                    cases hpl : parseLit ('n' :: 'u' :: 'l' :: 'l' :: [])
                        Json.null ('n' :: t) with
                    | none => exact Or.inl (by trivial)
                    | some x =>
                      obtain ⟨j2, r2⟩ := x
                      exact Or.inl (by trivial)
                  · simp only [h6, if_false]
                    cases hb : (decide (c = '-') || isDigitC c) with
                    | false =>
                      rw [if_neg Bool.false_ne_true]
                      exact Or.inl (by trivial)
                    | true =>
                      simp only [hb, eq_self_iff_true, if_true]
                      have hx := parseNum_ext (c :: t) w hw
                      simp only [List.cons_append] at hx
                      rw [hx]
                      cases hpn : parseNum (c :: t) with
                      | none => exact Or.inl (by trivial)
                      | some x =>
                        obtain ⟨j2, r2⟩ := x
                        exact Or.inl (by trivial)
    · intro l
      unfold parseElems
      rcases ihV l with hv | ⟨hv1, hv2⟩
      · rw [hv]
        cases hv2 : parseVal f l with
        | out => exact Or.inl (by trivial)
        | fail => exact Or.inl (by trivial)
        | ok p =>
          obtain ⟨v, r1⟩ := p
          simp only [prExt]
          cases hsk : skipWs r1 with
          | nil =>
            rw [skipWs_nil_ext r1 w hsk]
            cases hsw : skipWs w with
            | nil => exact Or.inl (by trivial)
            | cons cw tw =>
              rw [hsw] at hswall
              simp only [List.all_cons, Bool.and_eq_true] at hswall
              simp only [ws_ne cw ',' hswall.1 (by decide), if_false,
                ws_ne cw ']' hswall.1 (by decide)]
              exact Or.inl (by trivial)
          | cons c r2 =>
            rw [skipWs_cons_ext r1 w c r2 hsk]
            by_cases hc : c = ','
            · simp only [hc, eq_self_iff_true, if_true]
              cases hsk2 : skipWs r2 with
              | nil =>
                rw [skipWs_nil_ext r2 w hsk2]
                rw [parseElems_ws_eq f (skipWs w) hswall]
                rcases parseElems_nil_cases f with hc2 | hc2 <;>
                  (rw [hc2]; exact Or.inl (by trivial))
              | cons c3 r3 =>
                rw [skipWs_cons_ext r2 w c3 r3 hsk2]
                have hih := ihE (c3 :: r3)
                simp only [List.cons_append] at hih
                rcases hih with hih | ⟨hih1, hih2⟩
                · rw [hih]
                  cases he2 : parseElems f (c3 :: r3) with
                  | out => exact Or.inl (by trivial)
                  | fail => exact Or.inl (by trivial)
                  | ok p2 =>
                    obtain ⟨vs, r4⟩ := p2
                    exact Or.inl (by trivial)
                · rw [hih1, hih2]
                  exact Or.inr ⟨by trivial, by trivial⟩
            · simp only [hc, if_false]
              by_cases hc2 : c = ']'
              · simp only [hc2, eq_self_iff_true, if_true]
                exact Or.inl (by trivial)
              · simp only [hc2, if_false]
                exact Or.inl (by trivial)
      · rw [hv1, hv2]
        exact Or.inr ⟨by trivial, by trivial⟩
    · intro l
      cases l with
      | nil =>
        left
        rw [List.nil_append, parseMembers_ws_eq (f+1) w hw]
        rfl
      | cons c t =>
        simp only [List.cons_append]
        unfold parseMembers
        by_cases h1 : c = '"'
        · simp only [h1, eq_self_iff_true, if_true]
          rw [parseStr_ext t w hw]
          cases hps : parseStr t with
          | none => exact Or.inl (by trivial)
          | some p =>
            obtain ⟨k, r1⟩ := p
            simp only [opExt]
            cases hsk : skipWs r1 with
            | nil =>
              rw [skipWs_nil_ext r1 w hsk]
              cases hsw : skipWs w with
              | nil => exact Or.inl (by trivial)
              | cons cw tw =>
                rw [hsw] at hswall
                simp only [List.all_cons, Bool.and_eq_true] at hswall
                simp only [ws_ne cw ':' hswall.1 (by decide), if_false]
                exact Or.inl (by trivial)
            | cons c2 r2 =>
              rw [skipWs_cons_ext r1 w c2 r2 hsk]
              by_cases h2 : c2 = ':'
              · simp only [h2, eq_self_iff_true, if_true]
                cases hsk2 : skipWs r2 with
                | nil =>
                  rw [skipWs_nil_ext r2 w hsk2]
                  rw [parseVal_ws_eq f (skipWs w) hswall]
                  rcases parseVal_nil_cases f with hc2 | hc2 <;>
                    (rw [hc2]; exact Or.inl (by trivial))
                | cons c3 r3 =>
                  rw [skipWs_cons_ext r2 w c3 r3 hsk2]
                  have hih := ihV (c3 :: r3)
                  simp only [List.cons_append] at hih
                  rcases hih with hih | ⟨hih1, hih2⟩
                  · rw [hih]
                    cases hv2 : parseVal f (c3 :: r3) with
                    | out => exact Or.inl (by trivial)
                    | fail => exact Or.inl (by trivial)
                    | ok p2 =>
                      obtain ⟨v, r4⟩ := p2
                      simp only [prExt]
                      cases hsk4 : skipWs r4 with
                      | nil =>
                        rw [skipWs_nil_ext r4 w hsk4]
                        cases hsw : skipWs w with
                        | nil => exact Or.inl (by trivial)
                        | cons cw tw =>
                          rw [hsw] at hswall
                          simp only [List.all_cons, Bool.and_eq_true] at hswall
                          simp only [ws_ne cw ',' hswall.1 (by decide), if_false,
                            ws_ne cw '}' hswall.1 (by decide)]
                          exact Or.inl (by trivial)
                      | cons c4 r5 =>
                        rw [skipWs_cons_ext r4 w c4 r5 hsk4]
                        by_cases h3 : c4 = ','
                        · simp only [h3, eq_self_iff_true, if_true]
                          cases hsk5 : skipWs r5 with
                          | nil =>
                            rw [skipWs_nil_ext r5 w hsk5]
                            rw [parseMembers_ws_eq f (skipWs w) hswall]
                            rcases parseMembers_nil_cases f with hc2 | hc2 <;>
                              (rw [hc2]; exact Or.inl (by trivial))
                          | cons c5 r6 =>
                            rw [skipWs_cons_ext r5 w c5 r6 hsk5]
                            have hih2 := ihM (c5 :: r6)
                            simp only [List.cons_append] at hih2
                            rcases hih2 with hih2 | ⟨hih21, hih22⟩
                            · rw [hih2]
                              cases hm2 : parseMembers f (c5 :: r6) with
                              | out => exact Or.inl (by trivial)
                              | fail => exact Or.inl (by trivial)
                              | ok p3 =>
                                obtain ⟨kvs, r7⟩ := p3
                                exact Or.inl (by trivial)
                            · rw [hih21, hih22]
                              exact Or.inr ⟨by trivial, by trivial⟩
                        · simp only [h3, if_false]
                          by_cases h4 : c4 = '}'
                          · simp only [h4, eq_self_iff_true, if_true]
                            exact Or.inl (by trivial)
                          · simp only [h4, if_false]
                            exact Or.inl (by trivial)
                  · rw [hih1, hih2]
                    exact Or.inr ⟨by trivial, by trivial⟩
              · simp only [h2, if_false]
                exact Or.inl (by trivial)
        · simp only [h1, if_false]
          exact Or.inl (by trivial)

/-- A parse of a trimmed-core-plus-whitespace-suffix input yields the same
value when run on the core alone with the fuel `jparse` assigns to it. -/
theorem jparse_of_decomp (s1 w2 : Str) (v : Json) (rest : Str) (F : Nat)
    (hw2 : w2.all isJsWs = true)
    (hs1ws : skipWs s1 = s1)
    (hF : parseVal F (s1 ++ w2) = .ok (v, rest))
    (hrest : rest.all isJsonWs = true)
    (hFbig : 2 * s1.length + 2 ≤ F) :
    jparse s1 = some v := by
  rcases (parse_ext F w2 hw2).1 s1 with hext | ⟨hext1, hext2⟩
  · rw [hF] at hext
    cases hs : parseVal F s1 with
    | out => rw [hs] at hext; exact PR.noConfusion hext
    | fail => rw [hs] at hext; exact PR.noConfusion hext
    | ok p =>
      obtain ⟨v1, r1⟩ := p
      rw [hs] at hext
      simp only [prExt, PR.ok.injEq, Prod.mk.injEq] at hext
      obtain ⟨hv1, hr1⟩ := hext
      have hr1all : r1.all isJsonWs = true := by
        rw [hr1, List.all_append, Bool.and_eq_true] at hrest
        exact hrest.1
      have hne : parseVal (2 * s1.length + 2) s1 ≠ .out :=
        (parse_out (2 * s1.length + 2)).1 s1 (by omega)
      have hmono := parseVal_mono (2 * s1.length + 2) F s1 hFbig hne
      rw [hs] at hmono
      unfold jparse
      rw [hs1ws, ← hmono]
      show (if r1.all isJsonWs = true then some v1 else none) = some v
      rw [if_pos hr1all, hv1]
  · rw [hF] at hext1
    exact PR.noConfusion hext1

/-- Splitting a list at its maximal whitespace suffix. -/
theorem trimBack_decomp (l : Str) :
    l = (l.reverse.dropWhile isJsWs).reverse ++
        (l.reverse.takeWhile isJsWs).reverse ∧
    ((l.reverse.takeWhile isJsWs).reverse).all isJsWs = true := by
  constructor
  · conv_lhs => rw [← List.reverse_reverse l,
      ← List.takeWhile_append_dropWhile isJsWs l.reverse]
    rw [List.reverse_append]
  · rw [List.all_reverse]
    exact all_takeWhile isJsWs l.reverse

/-- `JSON.parse` is unaffected by a JavaScript `trim` of its input. -/
theorem jparse_trim (s : Str) (v : Json) (hp : jparse s = some v) :
    jparse (jsTrim s) = some v := by
  unfold jparse at hp
  cases hpv : parseVal (2 * s.length + 2) (skipWs s) with
  | out => simp only [hpv] at hp; exact Option.noConfusion hp
  | fail => simp only [hpv] at hp; exact Option.noConfusion hp
  | ok p =>
    obtain ⟨v0, rest⟩ := p
    simp only [hpv] at hp
    by_cases hrest : rest.all isJsonWs = true
    · rw [if_pos hrest] at hp
      simp only [Option.some.injEq] at hp
      subst hp
      obtain ⟨c, t0, hu, hcws⟩ := parseVal_head _ _ _ _ hpv
      have hfront : s.dropWhile isJsWs = skipWs s := by
        have hallp : (s.takeWhile isJsonWs).all isJsWs = true := by
          have h1 := all_takeWhile isJsonWs s
          rw [List.all_eq_true] at h1 ⊢
          intro x hx
          exact isJsWs_of_isJsonWs x (h1 x hx)
        conv_lhs => rw [← List.takeWhile_append_dropWhile isJsonWs s]
        rw [dropWhile_all_append isJsWs _ _ hallp]
        show ((skipWs s).dropWhile isJsWs) = skipWs s
        rw [hu]
        exact dropWhile_cons_neg isJsWs c t0 hcws
      obtain ⟨hdec, hw2all⟩ := trimBack_decomp (skipWs s)
      have htrim : jsTrim s = ((skipWs s).reverse.dropWhile isJsWs).reverse := by
        unfold jsTrim
        rw [hfront]
      have hs1ws : skipWs (((skipWs s).reverse.dropWhile isJsWs).reverse) =
          ((skipWs s).reverse.dropWhile isJsWs).reverse := by
        cases hc1 : ((skipWs s).reverse.dropWhile isJsWs).reverse with
        | nil => rfl
        | cons c1 t1 =>
          rw [hc1] at hdec
          rw [hu] at hdec
          simp only [List.cons_append, List.cons.injEq] at hdec
          have hc1c : c1 = c := hdec.1.symm
          have hjson : isJsonWs c1 = false := by
            cases hj : isJsonWs c1
            · rfl
            · rw [hc1c] at hj
              rw [isJsWs_of_isJsonWs c hj] at hcws
              exact Bool.noConfusion hcws
          unfold skipWs
          exact dropWhile_cons_neg isJsonWs c1 t1 hjson
      have hlen : 2 * (((skipWs s).reverse.dropWhile isJsWs).reverse).length +
          2 ≤ 2 * s.length + 2 := by
        have h1 := dropWhile_length_le isJsWs (skipWs s).reverse
        have h2 := skipWs_length_le s
        simp only [List.length_reverse] at h1 ⊢
        omega
      have hF2 : parseVal (2 * s.length + 2)
          ((((skipWs s).reverse.dropWhile isJsWs).reverse) ++
            (((skipWs s).reverse.takeWhile isJsWs).reverse)) =
          .ok (v0, rest) := by
        rw [← hdec]
        exact hpv
      rw [htrim]
      exact jparse_of_decomp _ _ v0 rest _ hw2all hs1ws hF2 hrest hlen
    · rw [if_neg hrest] at hp
      exact Option.noConfusion hp

/-- The fence-json test fails when its first character is not a backtick. -/
theorem fja_ne1 (c : Char) (t : Str) (h : ¬ c = btick) :
    isFenceJsonAt (c :: t) = false := by
  rcases t with _ | ⟨a, _ | ⟨b, _ | ⟨d, _ | ⟨e, _ | ⟨f2, _ | ⟨g, t7⟩⟩⟩⟩⟩⟩ <;>
    simp [isFenceJsonAt, h]

/-- The fence-json test fails when its second character is not a backtick. -/
theorem fja_ne2 (a c : Char) (t : Str) (h : ¬ c = btick) :
    isFenceJsonAt (a :: c :: t) = false := by
  rcases t with _ | ⟨x, _ | ⟨y, _ | ⟨z, _ | ⟨e, _ | ⟨f2, t6⟩⟩⟩⟩⟩ <;>
    simp [isFenceJsonAt, h]

/-- The fence-json test fails when its third character is not a backtick. -/
theorem fja_ne3 (a b c : Char) (t : Str) (h : ¬ c = btick) :
    isFenceJsonAt (a :: b :: c :: t) = false := by
  rcases t with _ | ⟨x, _ | ⟨y, _ | ⟨z, _ | ⟨e, t5⟩⟩⟩⟩ <;>
    simp [isFenceJsonAt, h]

/-- The fence-json test fails when its fourth character is not a j. -/
theorem fja_ne4 (a b c d : Char) (t : Str) (h1 : ¬ d = 'j')
    (h2 : ¬ d = 'J') : isFenceJsonAt (a :: b :: c :: d :: t) = false := by
  rcases t with _ | ⟨x, _ | ⟨y, _ | ⟨z, t4⟩⟩⟩ <;>
    simp [isFenceJsonAt, h1, h2]

/-- The triple-backtick test fails when its first character is not a
backtick. -/
theorem f3_ne1 (c : Char) (t : Str) (h : ¬ c = btick) :
    isFence3At (c :: t) = false := by
  rcases t with _ | ⟨x, _ | ⟨y, t3⟩⟩ <;> simp [isFence3At, h]

/-- The triple-backtick test fails when its second character is not a
backtick. -/
theorem f3_ne2 (a c : Char) (t : Str) (h : ¬ c = btick) :
    isFence3At (a :: c :: t) = false := by
  rcases t with _ | ⟨x, t2⟩ <;> simp [isFence3At, h]

/-- The triple-backtick test fails when its third character is not a
backtick. -/
theorem f3_ne3 (a b c : Char) (t : Str) (h : ¬ c = btick) :
    isFence3At (a :: b :: c :: t) = false := by
  simp [isFence3At, h]

/-- A fence-json match begins with a triple-backtick match. -/
theorem fja_of_f3 : ∀ l : Str, isFence3At l = false →
    isFenceJsonAt l = false := by
  intro l h
  rcases l with _ | ⟨x1, _ | ⟨x2, _ | ⟨x3, _ | ⟨x4, _ | ⟨x5, _ | ⟨x6, _ | ⟨x7, t⟩⟩⟩⟩⟩⟩⟩ <;>
    first
      | rfl
      | (cases hb1 : decide (x1 = btick) <;> cases hb2 : decide (x2 = btick) <;>
          cases hb3 : decide (x3 = btick) <;> simp_all [isFenceJsonAt, isFence3At])

/-- Splitting `hasTriple` at the head. -/
theorem hasTriple_cons (c : Char) (t : Str) (h : hasTriple (c :: t) = false) :
    isFence3At (c :: t) = false ∧ hasTriple t = false := by
  simp only [hasTriple, Bool.or_eq_false_iff] at h
  exact h

/-- The `/```json/gi` scanner copies a triple-free prefix verbatim when the
rest of the input does not begin with a backtick. -/
theorem stripAGo_pass : ∀ (s r : Str), hasTriple s = false →
    (∀ c t2, r = c :: t2 → ¬ c = btick) →
    stripAGo 0 (s ++ r) = s ++ stripAGo 0 r
  | [], r, _, _ => by simp
  | c :: t, r, hs, hr => by
    obtain ⟨hs3, hst⟩ := hasTriple_cons c t hs
    have hf3 : isFence3At (c :: (t ++ r)) = false := by
      cases t with
      | nil =>
        cases r with
        | nil => rfl
        | cons rc rt => exact f3_ne2 c rc rt (hr rc rt rfl)
      | cons x t2 =>
        cases t2 with
        | nil =>
          cases r with
          | nil => rfl
          | cons rc rt => exact f3_ne3 c x rc rt (hr rc rt rfl)
        | cons y t3 =>
          rw [show isFence3At (c :: ((x :: y :: t3) ++ r)) =
            isFence3At (c :: x :: y :: t3) from rfl]
          exact hs3
    have hfja : isFenceJsonAt (c :: (t ++ r)) = false := fja_of_f3 _ hf3
    simp only [List.cons_append]
    rw [show stripAGo 0 (c :: (t ++ r)) =
        if isFenceJsonAt (c :: (t ++ r)) = true then stripAGo 6 (t ++ r)
        else c :: stripAGo 0 (t ++ r) from rfl]
    rw [hfja, if_neg Bool.false_ne_true]
    rw [stripAGo_pass t r hst hr]

/-- The `/```/g` scanner copies a triple-free prefix verbatim when the rest
of the input does not begin with a backtick. -/
theorem stripBGo_pass : ∀ (s r : Str), hasTriple s = false →
    (∀ c t2, r = c :: t2 → ¬ c = btick) →
    stripBGo 0 (s ++ r) = s ++ stripBGo 0 r
  | [], r, _, _ => by simp
  | c :: t, r, hs, hr => by
    obtain ⟨hs3, hst⟩ := hasTriple_cons c t hs
    have hf3 : isFence3At (c :: (t ++ r)) = false := by
      cases t with
      | nil =>
        cases r with
        | nil => rfl
        | cons rc rt => exact f3_ne2 c rc rt (hr rc rt rfl)
      | cons x t2 =>
        cases t2 with
        | nil =>
          cases r with
          | nil => rfl
          | cons rc rt => exact f3_ne3 c x rc rt (hr rc rt rfl)
        | cons y t3 =>
          rw [show isFence3At (c :: ((x :: y :: t3) ++ r)) =
            isFence3At (c :: x :: y :: t3) from rfl]
          exact hs3
    simp only [List.cons_append]
    rw [show stripBGo 0 (c :: (t ++ r)) =
        if isFence3At (c :: (t ++ r)) = true then stripBGo 2 (t ++ r)
        else c :: stripBGo 0 (t ++ r) from rfl]
    rw [hf3, if_neg Bool.false_ne_true]
    rw [stripBGo_pass t r hst hr]

/-- The `/```json/gi` scanner replaces each opening fence by its trailing
newline. -/
theorem stripAGo_opens : ∀ (k : Nat) (r : Str),
    stripAGo 0 (opensRep k ++ r) = nlRep k ++ stripAGo 0 r
  | 0, r => by simp [opensRep, nlRep]
  | k+1, r => by
    simp only [opensRep, List.cons_append]
    rw [show stripAGo 0 (btick :: btick :: btick :: 'j' :: 's' :: 'o' :: 'n' ::
        '\n' :: (opensRep k ++ r)) = stripAGo 0 ('\n' :: (opensRep k ++ r))
      from rfl]
    rw [show stripAGo 0 ('\n' :: (opensRep k ++ r)) =
        if isFenceJsonAt ('\n' :: (opensRep k ++ r)) = true
        then stripAGo 6 (opensRep k ++ r)
        else '\n' :: stripAGo 0 (opensRep k ++ r) from rfl]
    rw [fja_ne1 '\n' _ (by decide), if_neg Bool.false_ne_true]
    rw [stripAGo_opens k r]
    simp [nlRep, List.replicate_succ]

/-- The `/```json/gi` scanner leaves the closing fences unchanged. -/
theorem stripAGo_closers : ∀ k : Nat, stripAGo 0 (closersRep k) = closersRep k
  | 0 => rfl
  | k+1 => by
    show stripAGo 0 ('\n' :: btick :: btick :: btick :: closersRep k) =
      '\n' :: btick :: btick :: btick :: closersRep k
    rw [show stripAGo 0 ('\n' :: btick :: btick :: btick :: closersRep k) =
        if isFenceJsonAt ('\n' :: btick :: btick :: btick :: closersRep k) = true
        then stripAGo 6 (btick :: btick :: btick :: closersRep k)
        else '\n' :: stripAGo 0 (btick :: btick :: btick :: closersRep k)
      from rfl]
    rw [fja_ne1 '\n' _ (by decide), if_neg Bool.false_ne_true]
    have h4 : isFenceJsonAt (btick :: btick :: btick :: closersRep k) = false := by
      cases k with
      | zero => rfl
      | succ k2 => exact fja_ne4 btick btick btick '\n' _ (by decide) (by decide)
    rw [show stripAGo 0 (btick :: btick :: btick :: closersRep k) =
        if isFenceJsonAt (btick :: btick :: btick :: closersRep k) = true
        then stripAGo 6 (btick :: btick :: closersRep k)
        else btick :: stripAGo 0 (btick :: btick :: closersRep k) from rfl]
    rw [h4, if_neg Bool.false_ne_true]
    have h3 : isFenceJsonAt (btick :: btick :: closersRep k) = false := by
      cases k with
      | zero => rfl
      | succ k2 => exact fja_ne3 btick btick '\n' _ (by decide)
    rw [show stripAGo 0 (btick :: btick :: closersRep k) =
        if isFenceJsonAt (btick :: btick :: closersRep k) = true
        then stripAGo 6 (btick :: closersRep k)
        else btick :: stripAGo 0 (btick :: closersRep k) from rfl]
    rw [h3, if_neg Bool.false_ne_true]
    have h2 : isFenceJsonAt (btick :: closersRep k) = false := by
      cases k with
      | zero => rfl
      | succ k2 => exact fja_ne2 btick '\n' _ (by decide)
    rw [show stripAGo 0 (btick :: closersRep k) =
        if isFenceJsonAt (btick :: closersRep k) = true
        then stripAGo 6 (closersRep k)
        else btick :: stripAGo 0 (closersRep k) from rfl]
    rw [h2, if_neg Bool.false_ne_true]
    rw [stripAGo_closers k]

/-- The `/```/g` scanner reduces each closing fence to its newline. -/
theorem stripBGo_closers : ∀ k : Nat, stripBGo 0 (closersRep k) = nlRep k
  | 0 => rfl
  | k+1 => by
    show stripBGo 0 ('\n' :: btick :: btick :: btick :: closersRep k) =
      nlRep (k+1)
    rw [show stripBGo 0 ('\n' :: btick :: btick :: btick :: closersRep k) =
        if isFence3At ('\n' :: btick :: btick :: btick :: closersRep k) = true
        then stripBGo 2 (btick :: btick :: btick :: closersRep k)
        else '\n' :: stripBGo 0 (btick :: btick :: btick :: closersRep k)
      from rfl]
    rw [f3_ne1 '\n' _ (by decide), if_neg Bool.false_ne_true]
    rw [show stripBGo 0 (btick :: btick :: btick :: closersRep k) =
        stripBGo 0 (closersRep k) from rfl]
    rw [stripBGo_closers k]
    simp [nlRep, List.replicate_succ]

/-- A newline prefix creates no triple backtick. -/
theorem hasTriple_nl : ∀ (k : Nat) (s : Str), hasTriple s = false →
    hasTriple (nlRep k ++ s) = false
  | 0, s, hs => hs
  | k+1, s, hs => by
    show hasTriple ('\n' :: (nlRep k ++ s)) = false
    simp only [hasTriple, Bool.or_eq_false_iff]
    exact ⟨f3_ne1 '\n' _ (by decide), hasTriple_nl k s hs⟩

/-- The closing fences never start with a backtick. -/
theorem closers_head (k : Nat) : ∀ c t2, closersRep k = c :: t2 →
    ¬ c = btick := by
  cases k with
  | zero => intro c t2 h; exact absurd h (List.noConfusion)
  | succ k2 =>
    intro c t2 h
    simp only [closersRep, List.cons.injEq] at h
    rw [← h.1]
    decide

/-- Appending one closing fence. -/
theorem closersRep_snoc : ∀ k : Nat,
    closersRep k ++ ('\n' :: btick :: btick :: btick :: []) = closersRep (k+1)
  | 0 => rfl
  | k+1 => by
    show '\n' :: btick :: btick :: btick ::
        (closersRep k ++ ('\n' :: btick :: btick :: btick :: [])) =
      '\n' :: btick :: btick :: btick :: closersRep (k+1)
    rw [closersRep_snoc k]

/-- `iterWrap` in explicit opens/body/closers form. -/
theorem iterWrap_eq : ∀ (k : Nat) (s : Str),
    iterWrap k s = opensRep k ++ s ++ closersRep k
  | 0, s => by simp [iterWrap, opensRep, closersRep]
  | k+1, s => by
    show wrapFence (iterWrap k s) = opensRep (k+1) ++ s ++ closersRep (k+1)
    rw [iterWrap_eq k s]
    unfold wrapFence
    rw [show "```json\n".toList = btick :: btick :: btick :: 'j' :: 's' ::
      'o' :: 'n' :: '\n' :: [] from rfl]
    rw [show "\n```".toList = '\n' :: btick :: btick :: btick :: [] from rfl]
    rw [show opensRep (k+1) = btick :: btick :: btick :: 'j' :: 's' :: 'o' ::
      'n' :: '\n' :: opensRep k from rfl]
    rw [← closersRep_snoc k]
    simp [List.append_assoc]

/-- The newline padding is JS whitespace. -/
theorem nlRep_all_ws (k : Nat) : (nlRep k).all isJsWs = true := by
  rw [nlRep, List.all_eq_true]
  intro x hx
  rw [List.eq_of_mem_replicate hx]
  decide

/-- An all-matching list is dropped entirely. -/
theorem dropWhile_all_nil (p : Char → Bool) (l : Str) (h : l.all p = true) :
    l.dropWhile p = [] := by
  rw [List.dropWhile_eq_nil_iff]
  intro x hx
  rw [List.all_eq_true] at h
  exact h x hx

/-- `jsTrim` discards all-whitespace padding on both sides. -/
theorem jsTrim_pad (p q m : Str) (hp : p.all isJsWs = true)
    (hq : q.all isJsWs = true) : jsTrim (p ++ m ++ q) = jsTrim m := by
  unfold jsTrim
  rw [List.append_assoc, dropWhile_all_append isJsWs p (m ++ q) hp,
    List.dropWhile_append]
  by_cases hm : (m.dropWhile isJsWs).isEmpty = true
  · rw [if_pos hm]
    rw [dropWhile_all_nil isJsWs q hq]
    rw [List.isEmpty_iff] at hm
    rw [hm]
  · rw [if_neg hm, List.reverse_append,
      dropWhile_all_append isJsWs q.reverse _ (by rw [List.all_reverse]; exact hq)]

/-- Cleaning a `k`-times fence-wrapped triple-free text trims the text. -/
theorem jsClean_iterWrap (k : Nat) (s : Str) (hs : hasTriple s = false) :
    jsClean (iterWrap k s) = jsTrim s := by
  unfold jsClean
  rw [iterWrap_eq k s]
  unfold stripA
  rw [List.append_assoc, stripAGo_opens k (s ++ closersRep k),
    stripAGo_pass s (closersRep k) hs (closers_head k),
    stripAGo_closers k]
  unfold stripB
  rw [show nlRep k ++ (s ++ closersRep k) = (nlRep k ++ s) ++ closersRep k
      from (List.append_assoc _ _ _).symm,
    stripBGo_pass (nlRep k ++ s) (closersRep k) (hasTriple_nl k s hs)
      (closers_head k),
    stripBGo_closers k]
  exact jsTrim_pad (nlRep k) (nlRep k) s (nlRep_all_ws k) (nlRep_all_ws k)

/-- C1 (amended): for every valid JSON text whose parsed value matches the
requested shape and which contains no triple-backtick substring, wrapping
the text in any number of Markdown code fences leaves `extractJson`
returning exactly the value a direct strict parse of the unwrapped text
returns. -/
theorem extractJson_fence_roundtrip (s : Str) (v : Json) (ty : JKind)
    (k : Nat) (hp : jparse s = some v) (ha : accepts ty v = true)
    (ht : hasTriple s = false) :
    extractJson (iterWrap k s) ty = .ok v := by
  unfold extractJson
  rw [jsClean_iterWrap k s ht, jparse_trim s v hp]
  simp only [ha, eq_self_iff_true, if_true]

/-- Witness for the amended C1 theorem: the array text `[1]` wrapped in two
nested code fences round-trips. -/
theorem extractJson_fence_roundtrip_witness :
    jparse ('[' :: '1' :: ']' :: []) = some (Json.arr [Json.num ('1' :: [])]) ∧
    accepts JKind.array (Json.arr [Json.num ('1' :: [])]) = true ∧
    hasTriple ('[' :: '1' :: ']' :: []) = false ∧
    extractJson (iterWrap 2 ('[' :: '1' :: ']' :: [])) JKind.array =
      Except.ok (Json.arr [Json.num ('1' :: [])]) :=
  ⟨rfl, rfl, rfl,
    extractJson_fence_roundtrip ('[' :: '1' :: ']' :: [])
      (Json.arr [Json.num ('1' :: [])]) JKind.array 2 rfl rfl rfl⟩

end MedicAI
